import Mathlib

/-!
Shallow embedding of the incremental Instagram crawl-and-sync pipeline
(`src/instagram_data_pipeline_v2.py`, class `InstagramDataPipelineV2`)
and proofs about the claims of its specification.

Strings are modelled as `List Char` (Python `str`).  Times are modelled as
`Nat`: the number of time units since `datetime.min` (the minimum
representable Python datetime, i.e. 0001-01-01T00:00:00), so `0` is
`datetime.min.replace(tzinfo=timezone.utc)` and the usual order on `Nat`
is the order on UTC datetimes.  Fallible collaborator calls (network,
parsing, embedding) are modelled with `Option` / `Except`, where
`none` / `.error` stands for a raised Python exception.
-/

abbrev Str := List Char

/-! ### Text normalizer (`clean_text`, source lines 141-149) -/

/-- Whitespace in the sense of Python's `str.split()` and of `\s` in a
Python 3 `re` pattern over `str`: the ASCII whitespace characters plus
the Unicode whitespace code points. -/
def isPySpace (c : Char) : Bool :=
  c = ' ' || c = '\t' || c = '\n' || c = '\r' || c = '\x0b' || c = '\x0c' ||
  c = '\x1c' || c = '\x1d' || c = '\x1e' || c = '\x1f' || c = '\x85' ||
  c = '\xa0' || c = ' ' ||
  (' ' ≤ c && c ≤ ' ') ||
  c = ' ' || c = ' ' || c = ' ' || c = ' ' || c = '　'

/-- ASCII letter, i.e. the `a-zA-Z` ranges of the character class on
source line 147. -/
def isAsciiLetter (c : Char) : Bool :=
  ('a' ≤ c && c ≤ 'z') || ('A' ≤ c && c ≤ 'Z')

/-- Characters kept by `re.sub(r'[^a-zA-Z_:\s]', '', text)`
(source line 147). -/
def keptChar (c : Char) : Bool :=
  isAsciiLetter c || c = '_' || c = ':' || isPySpace c

/-- Embedding of `emoji.demojize(text, language='en')` (source line 144),
parameterised by the emoji dictionary `em`: an emoji code point is
replaced by its colon-delimited English name, every other character is
kept.  (The library's multi-code-point emoji sequences are subsumed by
letting `em` act per code point, which is the common single-code-point
case; non-emoji characters are mapped to `none` by the real dictionary.) -/
def demojize (em : Char → Option Str) : Str → Str
  | [] => []
  | c :: cs =>
    match em c with
    | some name => ':' :: (name ++ ':' :: demojize em cs)
    | none => c :: demojize em cs

/-- One character of Python `str.lower()` (source line 145).  ASCII
upper-case letters map to lower case.  The two Unicode code points whose
`lower()` image contains ASCII (and which can therefore survive the later
character-class strip) are handled explicitly: U+212A KELVIN SIGN lowers
to `k`, and U+0130 LATIN CAPITAL LETTER I WITH DOT ABOVE lowers to
`i` followed by U+0307.  All remaining code points lower (or stay) within
non-ASCII, which the strip on line 147 removes either way, so they are
kept unchanged. -/
def pyLowerChar (c : Char) : Str :=
  if c = 'K' then ['k']
  else if c = 'İ' then ['i', '̇']
  else [c.toLower]

/-- Embedding of `text.lower()` (source line 145). -/
def pyLower (l : Str) : Str := l.flatMap pyLowerChar

/-- Attempt to match the regex alternative `http\S+` at the head of the
list (pattern of source line 146): the literal `http` followed by a
non-empty maximal run of non-whitespace.  Returns the remainder after the
match. -/
def matchHttp : Str → Option Str
  | a :: b :: c :: d :: rest =>
    if a = 'h' && b = 't' && c = 't' && d = 'p' &&
        !(rest.takeWhile (fun e => !isPySpace e)).isEmpty then
      some (rest.dropWhile (fun e => !isPySpace e))
    else none
  | _ => none

/-- Attempt to match the regex alternative `www.\S+` at the head of the
list (pattern of source line 146): the literal `www`, one arbitrary
character other than newline (the regex metacharacter `.`), then a
non-empty maximal run of non-whitespace. -/
def matchWww : Str → Option Str
  | a :: b :: c :: d :: rest =>
    if a = 'w' && b = 'w' && c = 'w' && !(d = '\n') &&
        !(rest.takeWhile (fun e => !isPySpace e)).isEmpty then
      some (rest.dropWhile (fun e => !isPySpace e))
    else none
  | _ => none

/-- Fuel-indexed scan of `re.sub(r'http\S+|www.\S+', '', text)`
(source line 146): at each position try the `http` alternative first,
then the `www` one; on a match drop the matched characters and resume
after them, otherwise keep the character and advance.  Every step
consumes at least one character, so fuel equal to the length of the
input (see `stripUrls`) always suffices and the fuel-exhausted branch is
unreachable. -/
def stripUrlsF : Nat → Str → Str
  | 0, l => l
  | _ + 1, [] => []
  | fuel + 1, c :: cs =>
    match matchHttp (c :: cs) with
    | some rest => stripUrlsF fuel rest
    | none =>
      match matchWww (c :: cs) with
      | some rest => stripUrlsF fuel rest
      | none => c :: stripUrlsF fuel cs

/-- Embedding of `re.sub(r'http\S+|www.\S+', '', text)` (source line 146). -/
def stripUrls (l : Str) : Str := stripUrlsF l.length l

/-- Embedding of `re.sub(r'[^a-zA-Z_:\s]', '', text)` (source line 147). -/
def stripNonKept (l : Str) : Str := l.filter keptChar

/-- Embedding of `re.sub(r':', '', text)` (source line 148). -/
def stripColons (l : Str) : Str := l.filter (fun c => c ≠ ':')

/-- Accumulator pass of Python `text.split()`: cut the input at runs of
whitespace, dropping empty pieces.  `acc` holds the reversed current
word. -/
def pySplitAux : Str → Str → List Str
  | [], acc => if acc.isEmpty then [] else [acc.reverse]
  | c :: cs, acc =>
    if isPySpace c then
      if acc.isEmpty then pySplitAux cs [] else acc.reverse :: pySplitAux cs []
    else pySplitAux cs (c :: acc)

/-- Embedding of Python `text.split()` (no separator argument). -/
def pySplit (l : Str) : List Str := pySplitAux l []

/-- Embedding of `' '.join(words)`. -/
def joinSpace (ws : List Str) : Str := List.intercalate [' '] ws

/-- Embedding of `InstagramDataPipelineV2.clean_text` on a non-`None`
string (source lines 144-149), parameterised by the emoji dictionary. -/
def clean_text_str (em : Char → Option Str) (l : Str) : Str :=
  joinSpace (pySplit (stripColons (stripNonKept (stripUrls (pyLower (demojize em l))))))

/-- Embedding of `InstagramDataPipelineV2.clean_text` (source lines
141-149): `None` input yields the empty string (line 142-143). -/
def clean_text (em : Char → Option Str) : Option Str → Str
  | none => []
  | some l => clean_text_str em l

/-- The emoji dictionary used in concrete evaluations: only the
waving-hand glyph U+1F44B, named `waving_hand` by the `emoji` package. -/
def emWave : Char → Option Str :=
  fun c => if c = '👋' then some ("waving_hand".toList) else none

/-! ### Paginated fetcher (`_make_paginated_request`, source lines 70-101) -/

/-- One JSON page of a cursor-paginated response, shape
`{data: [...], paging: {next: <url-or-absent>}}`.  A missing `data` key is
`dataField = none` (the code reads `data.get('data', [])`); a missing
`paging` key or missing `next` collapses to `pagingNext = none` (the code
reads `data.get('paging', {}).get('next')`). -/
structure RawPage (α : Type) where
  dataField : Option (List α)
  pagingNext : Option Str
deriving DecidableEq, Repr

/-- Result of one paginated fetch: the accumulated records (`all_data`),
the sleeps performed (`time.sleep` arguments, in order), and the URLs
requested, in order. -/
structure FetchOut (α : Type) where
  records : List α
  sleeps : List Nat
  requested : List Str
deriving DecidableEq, Repr

/-- Fuel-indexed embedding of the `while url and retry_count < max_retries`
loop of `_make_paginated_request` (source lines 74-95).  `http u = some p`
models a 2xx response with JSON body `p`; `http u = none` models a
`requests.RequestException` (connection error or `raise_for_status`).
On success the page's records are appended, the cursor advances and the
retry counter resets to 0, sleeping `d` (the rate-limit delay) when a next
page exists; on failure the counter increments and the loop sleeps
`d * 2 ^ retry` (exponential backoff) before retrying the same URL.  The
function returns `none` only when the fuel runs out, which models the
(possible) divergence of the Python loop on an infinite page chain; every
theorem quantifies over sufficient fuel. -/
def mprLoop (http : Str → Option (RawPage α)) (maxRetries d : Nat) :
    Nat → Option Str → Nat → List α → List Nat → List Str → Option (FetchOut α)
  | 0, _, _, _, _, _ => none
  | _ + 1, none, _, acc, sleeps, reqs => some ⟨acc, sleeps, reqs⟩
  | fuel + 1, some u, retry, acc, sleeps, reqs =>
    if retry < maxRetries then
      match http u with
      | some page =>
        let acc' := acc ++ page.dataField.getD []
        let next := page.pagingNext
        let sleeps' := if next.isSome then sleeps ++ [d] else sleeps
        mprLoop http maxRetries d fuel next 0 acc' sleeps' (reqs ++ [u])
      | none =>
        mprLoop http maxRetries d fuel (some u) (retry + 1) acc
          (sleeps ++ [d * 2 ^ (retry + 1)]) (reqs ++ [u])
    else some ⟨acc, sleeps, reqs⟩

/-- Embedding of `_make_paginated_request(url, params)` (source lines
70-101), `params` being folded into the URL.  In the source
`max_retries = 3` and `d = rate_limit_delay = 1`; they stay parameters
here.  Fuel as in `mprLoop`. -/
def make_paginated_request (http : Str → Option (RawPage α)) (maxRetries d fuel : Nat)
    (url : Str) : Option (FetchOut α) :=
  mprLoop http maxRetries d fuel (some url) 0 [] [] []

/-- A URL heads a finite chain of pages under `http`: each listed page is
served (2xx) for its URL, each page's `next` cursor is the URL of the next
entry, and the last page has no `next` cursor. -/
def pageChain [DecidableEq α] (http : Str → Option (RawPage α)) :
    Str → List (Str × RawPage α) → Bool
  | _, [] => false
  | u, [(u1, p1)] => u = u1 && http u1 = some p1 && p1.pagingNext = none
  | u, (u1, p1) :: (u2, p2) :: rest =>
    u = u1 && http u1 = some p1 && p1.pagingNext = some u2 &&
      pageChain http u2 ((u2, p2) :: rest)

/-! ### Data model of the crawl (source lines 103-277)

The collaborator boundary matches the repository's own unit test
(`test_instagram_data_pipeline.py`), which mocks exactly
`fetch_all_posts`, `fetch_comments`, `fetch_reply` and
`generate_embedding`. -/

/-- A raw post JSON object as consumed by `process_and_upload_data`:
`id` and `timestamp` are accessed with `[]` (required), the rest with
`.get` (optional).  Fields the code never reads are omitted. -/
structure PostJson where
  id : Str
  caption : Option Str
  timestamp : Str
  likeCount : Option Nat
  commentsCount : Option Nat
deriving DecidableEq, Repr

/-- An inline reply reference inside a comment's `replies.data` list;
only its `id` is read (source line 216). -/
structure ReplyRef where
  id : Str
deriving DecidableEq, Repr

/-- A raw comment JSON object.  `replies = none` covers both a missing
`replies` key and a `replies` object without a `data` key (the code
guards `if 'replies' in comment and 'data' in comment['replies']`,
source line 214, and both absences behave identically). -/
structure CommentJson where
  id : Str
  text : Option Str
  timestamp : Str
  username : Option Str
  replies : Option (List ReplyRef)
deriving DecidableEq, Repr

/-- A raw reply JSON object fetched by `fetch_reply`. -/
structure ReplyJson where
  id : Str
  text : Option Str
  timestamp : Str
  username : Option Str
deriving DecidableEq, Repr

/-- The entity kinds written to the `metadata.type` field of a vector
record. -/
inductive EntityKind
  | post
  | comment
  | reply
deriving DecidableEq, Repr

/-- The `metadata` dict of a Pinecone vector record.  Keys that a given
entity kind does not emit are `none`. -/
structure VecMeta where
  mtype : EntityKind
  timestamp : Str
  likes : Option Nat
  comments : Option Nat
  postId : Option Str
  parentCommentId : Option Str
  username : Option Str
  text : Str
deriving DecidableEq, Repr

/-- One `{id, values, metadata}` vector record staged for the Pinecone
batch upsert. -/
structure VecRecord where
  id : Str
  values : List Int
  metadata : VecMeta
deriving DecidableEq, Repr

/-- One row upserted into the `comments` table: used for both comments
(`parentCommentId = none`, source lines 203-210) and replies
(`parentCommentId = some _`, source lines 236-244). -/
structure CommentRow where
  id : Str
  postId : Str
  parentCommentId : Option Str
  text : Option Str
  timestamp : Str
  username : Str
  replied : Bool
deriving DecidableEq, Repr

/-- One relational upsert issued through the Supabase client, in program
order: a raw post into `posts` (source line 180) or a comment/reply row
into `comments`. -/
inductive RelWrite
  | postRow (p : PostJson)
  | commentRow (r : CommentRow)
deriving DecidableEq, Repr

/-- Outcome of the single `requests.get` inside `fetch_reply` (source
line 272): a 200 response with a JSON body, a non-200 status, or a raised
`requests` exception. -/
inductive HttpResp
  | ok (r : ReplyJson)
  | status (code : Nat)
  | exc
deriving DecidableEq, Repr

/-- Trace of one `fetch_reply` call: its result (`.error` models the
exception propagating to the caller), the number of HTTP requests it
made, and the backoff sleeps it performed. -/
structure FetchReplyOut where
  result : Except Unit (Option ReplyJson)
  attempts : Nat
  sleeps : List Nat
deriving Repr

/-- Embedding of `InstagramDataPipelineV2.fetch_reply` (source lines
266-277): one single `requests.get`; status 200 returns the JSON body,
any other status logs and returns `None`, an exception propagates.
There is no retry loop and no sleep. -/
def fetch_reply (http : Str → HttpResp) (replyId : Str) : FetchReplyOut :=
  match http replyId with
  | .ok r => ⟨.ok (some r), 1, []⟩
  | .status _ => ⟨.ok none, 1, []⟩
  | .exc => ⟨.error (), 1, []⟩

/-- The default username `'unknown_user'` (source lines 198, 208, 231,
242). -/
def unknownUser : Str := "unknown_user".toList

/-- The collaborator environment of one run, read-only during the run.
`wm` is `self.last_fetch_time` (the watermark read at start), `parseTs`
is `parser.parse(.).replace(tzinfo=timezone.utc)` with `none` for a raised
parse error, `emojiMap` the emoji dictionary, `posts` the result of
`fetch_all_posts`, `fetchComments` of `fetch_comments`, `http` the HTTP
oracle behind `fetch_reply`, `embed` is `generate_embedding` with `none`
for a raised provider error, `upsertOk` whether the final
`pinecone_index.upsert` succeeds, and `now` is `datetime.now(timezone.utc)`
at watermark-save time. -/
structure Env where
  wm : Nat
  parseTs : Str → Option Nat
  emojiMap : Char → Option Str
  posts : List PostJson
  fetchComments : Str → List CommentJson
  http : Str → HttpResp
  embed : Str → Option (List Int)
  upsertOk : Bool
  now : Nat

/-! ### The crawl engine (`process_and_upload_data`, source lines 155-255) -/

/-- The vector record built for a new post (source lines 168-178). -/
def postVec (env : Env) (p : PostJson) (vals : List Int) : VecRecord :=
  { id := p.id, values := vals,
    metadata :=
      { mtype := .post, timestamp := p.timestamp,
        likes := some (p.likeCount.getD 0),
        comments := some (p.commentsCount.getD 0),
        postId := none, parentCommentId := none, username := none,
        text := clean_text env.emojiMap p.caption } }

/-- The vector record built for a new comment (source lines 191-201). -/
def commentVec (env : Env) (postId : Str) (c : CommentJson) (vals : List Int) : VecRecord :=
  { id := c.id, values := vals,
    metadata :=
      { mtype := .comment, timestamp := c.timestamp,
        likes := none, comments := none,
        postId := some postId, parentCommentId := none,
        username := some (c.username.getD unknownUser),
        text := clean_text env.emojiMap c.text } }

/-- The row upserted into `comments` for a new comment (source lines
203-211). -/
def commentRowOf (postId : Str) (c : CommentJson) : CommentRow :=
  { id := c.id, postId := postId, parentCommentId := none,
    text := c.text, timestamp := c.timestamp,
    username := c.username.getD unknownUser, replied := false }

/-- The vector record built for a new reply (source lines 223-234). -/
def replyVec (env : Env) (postId commentId : Str) (r : ReplyJson) (vals : List Int) : VecRecord :=
  { id := r.id, values := vals,
    metadata :=
      { mtype := .reply, timestamp := r.timestamp,
        likes := none, comments := none,
        postId := some postId, parentCommentId := some commentId,
        username := some (r.username.getD unknownUser),
        text := clean_text env.emojiMap r.text } }

/-- The row upserted into `comments` for a new reply (source lines
236-245). -/
def replyRowOf (postId commentId : Str) (r : ReplyJson) : CommentRow :=
  { id := r.id, postId := postId, parentCommentId := some commentId,
    text := r.text, timestamp := r.timestamp,
    username := r.username.getD unknownUser, replied := false }

/-- Partial effects of a sub-unit of one post's processing: the vector
records appended to `vectors`, the relational upserts already executed,
and whether the sub-unit finished without raising (`ok = true`) or raised
an exception that the per-post guard will catch (`ok = false`).  In the
source the Supabase upserts and `vectors.append` calls take effect
immediately, so effects made before a failure survive it. -/
structure UnitOut where
  vecs : List VecRecord
  writes : List RelWrite
  ok : Bool
deriving DecidableEq, Repr

/-- Embedding of the inner reply loop (source lines 215-245): for each
inline reply reference resolve the reply via `fetch_reply`; a raised
exception aborts the remaining references (effects so far survive);
`None` (non-200) skips the reference; a resolved reply is parsed,
compared to the watermark, and --- when new --- embedded, staged as a
vector and upserted. -/
def processRefs (env : Env) (postId commentId : Str) : List ReplyRef → UnitOut
  | [] => ⟨[], [], true⟩
  | ref :: rest =>
    match (fetch_reply env.http ref.id).result with
    | .error _ => ⟨[], [], false⟩
    | .ok none => processRefs env postId commentId rest
    | .ok (some reply) =>
      match env.parseTs reply.timestamp with
      | none => ⟨[], [], false⟩
      | some ts =>
        if env.wm < ts then
          match env.embed (clean_text env.emojiMap reply.text) with
          | none => ⟨[], [], false⟩
          | some vals =>
            let out := processRefs env postId commentId rest
            ⟨replyVec env postId commentId reply vals :: out.vecs,
             .commentRow (replyRowOf postId commentId reply) :: out.writes,
             out.ok⟩
        else processRefs env postId commentId rest

/-- Embedding of the body of the comment loop for one comment (source
lines 185-245): parse its timestamp (a parse error raises), and when it
is newer than the watermark embed its cleaned text, stage a vector and
upsert a row; in either case walk its inline reply references. -/
def processOneComment (env : Env) (postId : Str) (c : CommentJson) : UnitOut :=
  match env.parseTs c.timestamp with
  | none => ⟨[], [], false⟩
  | some ts =>
    if env.wm < ts then
      match env.embed (clean_text env.emojiMap c.text) with
      | none => ⟨[], [], false⟩
      | some vals =>
        let out := processRefs env postId c.id (c.replies.getD [])
        ⟨commentVec env postId c vals :: out.vecs,
         .commentRow (commentRowOf postId c) :: out.writes,
         out.ok⟩
    else processRefs env postId c.id (c.replies.getD [])

/-- Embedding of the comment loop (source line 185): a raised exception
aborts the remaining comments of this post, keeping the effects already
made. -/
def processComments (env : Env) (postId : Str) : List CommentJson → UnitOut
  | [] => ⟨[], [], true⟩
  | c :: rest =>
    let u := processOneComment env postId c
    if u.ok then
      let r := processComments env postId rest
      ⟨u.vecs ++ r.vecs, u.writes ++ r.writes, r.ok⟩
    else u

/-- Effects of one post's guarded unit (the `try` body, source lines
162-247): the staged vectors and executed upserts, whether
`fetch_comments` was reached for this post, and whether the unit
completed without raising. -/
structure PostOut where
  vecs : List VecRecord
  writes : List RelWrite
  fetchedComments : Bool
  ok : Bool
deriving DecidableEq, Repr

/-- Embedding of one iteration of the post loop (source lines 162-247):
parse the post timestamp; when the post is new, embed its cleaned caption,
stage a vector and upsert the raw post; then fetch the post's comments
(for every post, new or old) and process them. -/
def processPostUnit (env : Env) (p : PostJson) : PostOut :=
  match env.parseTs p.timestamp with
  | none => ⟨[], [], false, false⟩
  | some ts =>
    let head : Option (List VecRecord × List RelWrite) :=
      if env.wm < ts then
        match env.embed (clean_text env.emojiMap p.caption) with
        | none => none
        | some vals => some ([postVec env p vals], [.postRow p])
      else some ([], [])
    match head with
    | none => ⟨[], [], false, false⟩
    | some (vs, ws) =>
      let u := processComments env p.id (env.fetchComments p.id)
      ⟨vs ++ u.vecs, ws ++ u.writes, true, u.ok⟩

/-- Cumulative outcome of the post loop: all staged vectors, all executed
relational upserts, the ids of the posts whose comments were fetched, and
the ids of the posts entered by the loop. -/
structure LoopOut where
  vecs : List VecRecord
  writes : List RelWrite
  commentFetches : List Str
  attempted : List Str
deriving DecidableEq, Repr

/-- Embedding of the post loop (source lines 161-249) with its per-post
`try`/`except` guard: a raised exception inside one post's unit is
caught, logged, and the loop continues with the next post; the failed
unit's effects made before the failure are kept. -/
def processPosts (env : Env) : List PostJson → LoopOut
  | [] => ⟨[], [], [], []⟩
  | p :: rest =>
    let u := processPostUnit env p
    let r := processPosts env rest
    ⟨u.vecs ++ r.vecs, u.writes ++ r.writes,
     (if u.fetchedComments then [p.id] else []) ++ r.commentFetches,
     p.id :: r.attempted⟩

/-- Result of a completed `process_and_upload_data` call: the loop
outcome plus the Pinecone batch upsert calls made (source lines
251-255). -/
structure PipelineOut where
  loopOut : LoopOut
  pineconeCalls : List (List VecRecord)
deriving DecidableEq, Repr

/-- Embedding of `process_and_upload_data` (source lines 155-255): run
the guarded post loop over the fetched posts, then, if any vectors were
staged, submit them in one batch upsert (whose failure raises out of the
function); an empty batch makes no Pinecone call. -/
def process_and_upload_data (env : Env) : Except Unit PipelineOut :=
  let r := processPosts env env.posts
  if r.vecs.isEmpty then .ok ⟨r, []⟩
  else if env.upsertOk then .ok ⟨r, [r.vecs]⟩
  else .error ()

/-! ### Watermark and run coordinator (source lines 61-68 and 279-286) -/

/-- A value stored under the `value` key of a `metadata` row: a string or
some non-string JSON value. -/
inductive StoredVal
  | str (s : Str)
  | nonString
deriving DecidableEq, Repr

/-- One row of the `metadata` table as returned by the Supabase select;
`value = none` models a row without a `value` key. -/
structure MetaRow where
  value : Option StoredVal
deriving DecidableEq, Repr

/-- Embedding of `load_last_fetch_time` (source lines 61-65), with
`fromIso` standing for `datetime.fromisoformat` (+ `replace(tzinfo=utc)`),
`none` modelling a raised parse error.  When the result set is empty or
its first row's `value` is missing or not a string, the minimum
representable timestamp `datetime.min.replace(tzinfo=timezone.utc)`
(i.e. `0` in the time model) is returned. -/
def load_last_fetch_time (data : List MetaRow) (fromIso : Str → Option Nat) :
    Option Nat :=
  match data with
  | [] => some 0
  | row :: _ =>
    match row.value with
    | some (.str s) => fromIso s
    | _ => some 0

/-- Embedding of `run` (source lines 279-286) composed with
`save_last_fetch_time` (source lines 67-68): the stored watermark after a
run is `datetime.now(timezone.utc)` when `process_and_upload_data`
returned normally, and is left at its previous value when a fatal error
propagated (the `except` clause logs and re-raises before
`save_last_fetch_time` is reached). -/
def storedAfterRun (env : Env) (stored : Nat) : Nat :=
  match process_and_upload_data env with
  | .ok _ => env.now
  | .error _ => stored

/-- The trajectory of the stored watermark across a sequence of runs:
element `i` is the stored value after the first `i + 1` runs. -/
def storedTrajectory (stored : Nat) : List Env → List Nat
  | [] => []
  | env :: rest =>
    let s := storedAfterRun env stored
    s :: storedTrajectory s rest

/-! ### Decidable newness and per-unit health predicates -/

/-- An entity timestamp string is new for this run: it parses and the
parsed time is strictly greater than the watermark read at run start.
This is the single filter rule of source lines 165, 188 and 220. -/
def newTs (env : Env) (ts : Str) : Bool :=
  match env.parseTs ts with
  | some t => decide (env.wm < t)
  | none => false

/-- The reply that a follow-up `fetch_reply` resolves an inline reference
to, when the call neither raises nor reports a non-200 status. -/
def resolvedReply (env : Env) (ref : ReplyRef) : Option ReplyJson :=
  match (fetch_reply env.http ref.id).result with
  | .ok (some r) => some r
  | _ => none

/-- The embedding vector for a text, defaulting to `[]`; only ever used
where the provider is known to succeed. -/
def embedOf (env : Env) (t : Str) : List Int := (env.embed t).getD []

/-- Processing one inline reply reference raises no exception: the
follow-up fetch does not raise, and when it resolves a reply, the reply's
timestamp parses and, if the reply is new, its embedding succeeds. -/
def replyRefOk (env : Env) (ref : ReplyRef) : Bool :=
  match (fetch_reply env.http ref.id).result with
  | .error _ => false
  | .ok none => true
  | .ok (some r) =>
    match env.parseTs r.timestamp with
    | none => false
    | some ts =>
      !decide (env.wm < ts) || (env.embed (clean_text env.emojiMap r.text)).isSome

/-- Processing one comment raises no exception: its timestamp parses,
if it is new its embedding succeeds, and all its inline reply references
are healthy. -/
def commentOk (env : Env) (c : CommentJson) : Bool :=
  (match env.parseTs c.timestamp with
   | none => false
   | some ts =>
     !decide (env.wm < ts) || (env.embed (clean_text env.emojiMap c.text)).isSome) &&
  (c.replies.getD []).all (replyRefOk env)

/-- The part of one post's unit before `fetch_comments` raises no
exception: the post timestamp parses and, if the post is new, its caption
embedding succeeds. -/
def postHeadOk (env : Env) (p : PostJson) : Bool :=
  match env.parseTs p.timestamp with
  | none => false
  | some ts =>
    !decide (env.wm < ts) || (env.embed (clean_text env.emojiMap p.caption)).isSome

/-- One post's whole guarded unit raises no exception. -/
def postOk (env : Env) (p : PostJson) : Bool :=
  postHeadOk env p && (env.fetchComments p.id).all (commentOk env)

/-- No per-post exception occurs anywhere in the run. -/
def envOk (env : Env) : Bool := env.posts.all (postOk env)

/-- The timestamp string carried by a relational write. -/
def relWriteTs : RelWrite → Str
  | .postRow p => p.timestamp
  | .commentRow r => r.timestamp

/-! ### Reference crawl, modelled from the spec

The following three definitions are NOT translated from the source: they
follow the words of spec sections 3 and 4.3 — "an entity is new iff its
timestamp is strictly greater than the Watermark read at run start",
applied independently at each hierarchy level, with comments fetched for
every post and replies resolved by follow-up single-entity fetches — and
serve as the comparison side of the refinement proved about
`processPosts`.  Each new entity contributes exactly one staged vector
record paired with one relational upsert. -/

/-- Modelled from the spec: the (vector, upsert) pairs one inline reply
reference of a comment contributes to the write-set. -/
def specRefEntities (env : Env) (postId commentId : Str) (ref : ReplyRef) :
    List (VecRecord × RelWrite) :=
  match resolvedReply env ref with
  | some r =>
    if newTs env r.timestamp then
      [(replyVec env postId commentId r (embedOf env (clean_text env.emojiMap r.text)),
        .commentRow (replyRowOf postId commentId r))]
    else []
  | none => []

/-- Modelled from the spec: the (vector, upsert) pairs one comment of a
post contributes to the write-set, followed by its replies'. -/
def specCommentEntities (env : Env) (postId : Str) (c : CommentJson) :
    List (VecRecord × RelWrite) :=
  (if newTs env c.timestamp then
    [(commentVec env postId c (embedOf env (clean_text env.emojiMap c.text)),
      .commentRow (commentRowOf postId c))]
   else []) ++
  (c.replies.getD []).flatMap (specRefEntities env postId c.id)

/-- Modelled from the spec: the (vector, upsert) pairs one post
contributes to the write-set, followed by its comments'. -/
def specPostEntities (env : Env) (p : PostJson) : List (VecRecord × RelWrite) :=
  (if newTs env p.timestamp then
    [(postVec env p (embedOf env (clean_text env.emojiMap p.caption)), .postRow p)]
   else []) ++
  (env.fetchComments p.id).flatMap (specCommentEntities env p.id)

/-- The character alphabet of a fully cleaned text: ASCII lower-case
letters, underscore, and the single space. -/
def outChar (c : Char) : Bool :=
  ('a' ≤ c && c ≤ 'z') || c = '_' || c = ' '

/-! ### Concrete fixtures for evaluations -/

/-- The timestamp table of the concrete fixtures: `parser.parse` composed
with `replace(tzinfo=utc)`, where `tmin` is a string such as
`0001-01-01T00:00:00` that parses to exactly `datetime.min`, the other
`tN` parse to later times in increasing order, and `bad` raises a parse
error. -/
def parseT : Str → Option Nat := fun s =>
  if s = "t5".toList then some 5
  else if s = "t7".toList then some 7
  else if s = "t20".toList then some 20
  else if s = "t30".toList then some 30
  else if s = "t40".toList then some 40
  else if s = "tmin".toList then some 0
  else none

/-- A post newer than watermark 10. -/
def postNew : PostJson :=
  ⟨"p1".toList, some "Nice day".toList, "t20".toList, some 3, some 2⟩

/-- A post older than watermark 10. -/
def postOld : PostJson := ⟨"p2".toList, none, "t5".toList, none, none⟩

/-- A post whose timestamp parses to exactly `datetime.min`. -/
def postMin : PostJson := ⟨"pm".toList, none, "tmin".toList, none, none⟩

/-- A comment newer than watermark 10, carrying one inline reply
reference. -/
def comNew : CommentJson :=
  ⟨"c1".toList, some "Cool".toList, "t30".toList, some "alice".toList,
   some [⟨"r1".toList⟩]⟩

/-- A comment older than watermark 10. -/
def comOld : CommentJson := ⟨"c2".toList, some "Meh".toList, "t7".toList, none, none⟩

/-- A comment whose timestamp does not parse. -/
def comBad : CommentJson := ⟨"cb".toList, some "yo".toList, "bad".toList, none, none⟩

/-- A reply newer than watermark 10. -/
def repNew : ReplyJson := ⟨"r1".toList, some "Wow".toList, "t40".toList, none⟩

/-- A healthy two-post environment: one new post with a new comment
carrying a new resolved reply, and one old post with an old comment. -/
def envW : Env :=
  { wm := 10, parseTs := parseT, emojiMap := emWave,
    posts := [postNew, postOld],
    fetchComments := fun pid =>
      if pid = "p1".toList then [comNew]
      else if pid = "p2".toList then [comOld] else [],
    http := fun rid => if rid = "r1".toList then .ok repNew else .status 404,
    embed := fun _ => some [2], upsertOk := true, now := 50 }

/-- The environment `envW` as seen by a first-ever run: watermark
`datetime.min`. -/
def envW0 : Env := { envW with wm := 0 }

/-- An environment whose single (old) post has one processable new
comment followed by a comment whose timestamp raises a parse error. -/
def envC2x : Env :=
  { wm := 10, parseTs := parseT, emojiMap := emWave,
    posts := [⟨"p9".toList, none, "t5".toList, none, none⟩],
    fetchComments := fun pid =>
      if pid = "p9".toList then
        [⟨"c9".toList, some "Hey".toList, "t20".toList, none, none⟩, comBad]
      else [],
    http := fun _ => .status 500,
    embed := fun _ => some [1], upsertOk := true, now := 60 }

/-- An environment whose run stages one vector and whose Pinecone batch
upsert raises: `process_and_upload_data` raises a fatal error. -/
def envFatal : Env :=
  { wm := 10, parseTs := parseT, emojiMap := emWave, posts := [postNew],
    fetchComments := fun _ => [], http := fun _ => .status 404,
    embed := fun _ => some [1], upsertOk := false, now := 7 }

/-- The same run as `envFatal` but with a healthy Pinecone upsert. -/
def envGood : Env :=
  { wm := 10, parseTs := parseT, emojiMap := emWave, posts := [postNew],
    fetchComments := fun _ => [], http := fun _ => .status 404,
    embed := fun _ => some [1], upsertOk := true, now := 5 }

/-- A first-ever run (watermark `datetime.min`) whose single post's
timestamp parses to exactly `datetime.min`. -/
def envC10x : Env :=
  { wm := 0, parseTs := parseT, emojiMap := emWave, posts := [postMin],
    fetchComments := fun _ => [], http := fun _ => .status 404,
    embed := fun _ => some [1], upsertOk := true, now := 9 }

/-- An HTTP oracle on which every page request raises
`requests.RequestException`. -/
def httpAllFail : Str → Option (RawPage Nat) := fun _ => none

/-- A three-page oracle: page `uA` holds records 1, 2 and chains to `uB`;
page `uB` is malformed (no `data` key) and chains to `uC`; page `uC`
holds record 3 and ends the chain. -/
def http3 : Str → Option (RawPage Nat) := fun u =>
  if u = "uA".toList then some ⟨some [1, 2], some "uB".toList⟩
  else if u = "uB".toList then some ⟨none, some "uC".toList⟩
  else if u = "uC".toList then some ⟨some [3], none⟩
  else none

/-- The page chain served by `http3`. -/
def pages3 : List (Str × RawPage Nat) :=
  [("uA".toList, ⟨some [1, 2], some "uB".toList⟩),
   ("uB".toList, ⟨none, some "uC".toList⟩),
   ("uC".toList, ⟨some [3], none⟩)]

/-- A single-entity HTTP oracle that always answers status 500. -/
def http500 : Str → HttpResp := fun _ => .status 500

/-- A single-entity HTTP oracle on which the request always raises. -/
def httpExcO : Str → HttpResp := fun _ => .exc

/-! ### Lemmas about the normalizer -/

theorem toLower_fix (c : Char) (h : ¬(65 ≤ c.toNat ∧ c.toNat ≤ 90)) :
    c.toLower = c := by
  simp only [Char.toLower]
  split
  · exact absurd (by omega) h
  · rfl

theorem ofNat_toNat_eq (n : Nat) (h : n < 55296) : (Char.ofNat n).toNat = n := by
  have hv : Nat.isValidChar n := Or.inl h
  simp only [Char.ofNat, dif_pos hv, Char.ofNatAux, Char.toNat, UInt32.ofNat',
    UInt32.toNat, BitVec.toNat_ofNatLt]

theorem toLower_upper_toNat (c : Char) (h1 : 65 ≤ c.toNat) (h2 : c.toNat ≤ 90) :
    (Char.toLower c).toNat = c.toNat + 32 := by
  simp only [Char.toLower]
  rw [if_pos ⟨h1, h2⟩]
  exact ofNat_toNat_eq _ (by omega)

theorem pyLowerChar_not_upper (c d : Char) (hd : d ∈ pyLowerChar c) :
    ¬(65 ≤ d.toNat ∧ d.toNat ≤ 90) := by
  unfold pyLowerChar at hd
  split at hd
  · simp only [List.mem_singleton] at hd
    subst hd; decide
  · split at hd
    · simp only [List.mem_cons, List.mem_singleton, List.not_mem_nil, or_false] at hd
      rcases hd with rfl | rfl <;> decide
    · simp only [List.mem_singleton] at hd
      subst hd
      by_cases hc : 65 ≤ c.toNat ∧ c.toNat ≤ 90
      · have := toLower_upper_toNat c hc.1 hc.2
        omega
      · rw [toLower_fix c hc]; exact hc

theorem pyLowerChar_fix (c : Char) (h : outChar c = true) : pyLowerChar c = [c] := by
  have hK : ¬(c = 'K') := by rintro rfl; revert h; decide
  have hI : ¬(c = 'İ') := by rintro rfl; revert h; decide
  have hb : ¬(65 ≤ c.toNat ∧ c.toNat ≤ 90) := by
    simp only [outChar, Bool.or_eq_true, Bool.and_eq_true, decide_eq_true_eq] at h
    rcases h with (⟨h1, h2⟩ | rfl) | rfl
    · have ha : 97 ≤ c.toNat := h1
      omega
    · decide
    · decide
  unfold pyLowerChar
  rw [if_neg hK, if_neg hI, toLower_fix c hb]

theorem pyLower_fix (l : Str) (h : ∀ c ∈ l, outChar c = true) : pyLower l = l := by
  induction l with
  | nil => rfl
  | cons c cs ih =>
    simp only [pyLower, List.flatMap_cons] at *
    rw [pyLowerChar_fix c (h c (List.mem_cons_self c cs))]
    simp only [List.singleton_append, List.cons.injEq, true_and]
    exact ih fun d hd => h d (List.mem_cons_of_mem c hd)

theorem demojize_fix (em : Char → Option Str) (l : Str)
    (hem : ∀ c, outChar c = true → em c = none)
    (h : ∀ c ∈ l, outChar c = true) : demojize em l = l := by
  induction l with
  | nil => rfl
  | cons c cs ih =>
    rw [demojize, hem c (h c (List.mem_cons_self c cs))]
    exact congrArg (c :: ·) (ih fun d hd => h d (List.mem_cons_of_mem c hd))

theorem matchHttp_subset {l rest : Str} (h : matchHttp l = some rest) : rest ⊆ l := by
  unfold matchHttp at h
  split at h
  · split at h
    · rename_i a b c d rest0 hcond
      obtain rfl : List.dropWhile (fun e => !isPySpace e) rest0 = rest := Option.some.inj h
      intro x hx
      have hx0 : x ∈ rest0 := (List.dropWhile_sublist _).subset hx
      exact List.mem_cons_of_mem _ (List.mem_cons_of_mem _ (List.mem_cons_of_mem _
        (List.mem_cons_of_mem _ hx0)))
    · exact absurd h (by simp)
  · exact absurd h (by simp)

theorem matchWww_subset {l rest : Str} (h : matchWww l = some rest) : rest ⊆ l := by
  unfold matchWww at h
  split at h
  · split at h
    · rename_i a b c d rest0 hcond
      obtain rfl : List.dropWhile (fun e => !isPySpace e) rest0 = rest := Option.some.inj h
      intro x hx
      have hx0 : x ∈ rest0 := (List.dropWhile_sublist _).subset hx
      exact List.mem_cons_of_mem _ (List.mem_cons_of_mem _ (List.mem_cons_of_mem _
        (List.mem_cons_of_mem _ hx0)))
    · exact absurd h (by simp)
  · exact absurd h (by simp)

theorem mem_stripUrlsF : ∀ (fuel : Nat) (l : Str) (c : Char),
    c ∈ stripUrlsF fuel l → c ∈ l := by
  intro fuel
  induction fuel with
  | zero => intro l c h; exact h
  | succ n ih =>
    intro l c h
    match l with
    | [] => exact h
    | a :: cs =>
      simp only [stripUrlsF] at h
      cases hH : matchHttp (a :: cs) with
      | some rest =>
        rw [hH] at h
        exact matchHttp_subset hH (ih rest c h)
      | none =>
        rw [hH] at h
        cases hW : matchWww (a :: cs) with
        | some rest =>
          rw [hW] at h
          exact matchWww_subset hW (ih rest c h)
        | none =>
          rw [hW] at h
          rcases List.mem_cons.mp h with rfl | hmem
          · exact List.mem_cons_self _ _
          · exact List.mem_cons_of_mem _ (ih cs c hmem)

theorem mem_stripUrls {l : Str} {c : Char} (h : c ∈ stripUrls l) : c ∈ l :=
  mem_stripUrlsF l.length l c h

theorem pySplitAux_chars (P : Char → Prop) :
    ∀ (l acc : Str), (∀ c ∈ l, P c) → (∀ c ∈ acc, P c ∧ isPySpace c = false) →
      ∀ w ∈ pySplitAux l acc, ∀ c ∈ w, P c ∧ isPySpace c = false := by
  intro l
  induction l with
  | nil =>
    intro acc _ hacc w hw c hc
    rw [pySplitAux] at hw
    split at hw
    · exact absurd hw (List.not_mem_nil w)
    · rcases List.mem_singleton.mp hw with rfl
      exact hacc c (List.mem_reverse.mp hc)
  | cons a cs ih =>
    intro acc hl hacc w hw c hc
    rw [pySplitAux] at hw
    split at hw
    · split at hw
      · exact ih [] (fun d hd => hl d (List.mem_cons_of_mem a hd)) (by simp) w hw c hc
      · rcases List.mem_cons.mp hw with rfl | hw2
        · exact hacc c (List.mem_reverse.mp hc)
        · exact ih [] (fun d hd => hl d (List.mem_cons_of_mem a hd)) (by simp) w hw2 c hc
    · rename_i hsp
      refine ih (a :: acc) (fun d hd => hl d (List.mem_cons_of_mem a hd)) ?_ w hw c hc
      intro d hd
      rcases List.mem_cons.mp hd with rfl | hd2
      · exact ⟨hl d (List.mem_cons_self d cs), Bool.not_eq_true _ ▸ by
          simpa using hsp⟩
      · exact hacc d hd2

theorem pySplitAux_ne_nil : ∀ (l acc : Str), ∀ w ∈ pySplitAux l acc, w ≠ [] := by
  intro l
  induction l with
  | nil =>
    intro acc w hw
    rw [pySplitAux] at hw
    split at hw
    · exact absurd hw (List.not_mem_nil w)
    · rename_i hne
      rcases List.mem_singleton.mp hw with rfl
      simpa [List.isEmpty_iff] using hne
  | cons a cs ih =>
    intro acc w hw
    rw [pySplitAux] at hw
    split at hw
    · split at hw
      · exact ih [] w hw
      · rename_i hne
        rcases List.mem_cons.mp hw with rfl | hw2
        · simpa [List.isEmpty_iff] using hne
        · exact ih [] w hw2
    · exact ih (a :: acc) w hw

theorem joinSpace_nil : joinSpace [] = [] := rfl

theorem joinSpace_single (w : Str) : joinSpace [w] = w := by
  simp [joinSpace, List.intercalate, List.intersperse]

theorem joinSpace_cons_cons (w v : Str) (rest : List Str) :
    joinSpace (w :: v :: rest) = w ++ ' ' :: joinSpace (v :: rest) := by
  simp [joinSpace, List.intercalate, List.intersperse]

theorem mem_joinSpace (ws : List Str) (c : Char) (h : c ∈ joinSpace ws) :
    (∃ w ∈ ws, c ∈ w) ∨ c = ' ' := by
  induction ws with
  | nil => exact absurd h (by simp [joinSpace, List.intercalate])
  | cons w rest ih =>
    cases rest with
    | nil =>
      rw [joinSpace_single] at h
      exact Or.inl ⟨w, List.mem_cons_self w [], h⟩
    | cons v rest2 =>
      rw [joinSpace_cons_cons] at h
      rcases List.mem_append.mp h with hw | hr
      · exact Or.inl ⟨w, List.mem_cons_self _ _, hw⟩
      · rcases List.mem_cons.mp hr with rfl | h2
        · exact Or.inr rfl
        · rcases ih h2 with ⟨u, hu, hc⟩ | rfl
          · exact Or.inl ⟨u, List.mem_cons_of_mem w hu, hc⟩
          · exact Or.inr rfl

theorem pySplitAux_all_nonspace (w : Str) (hw : ∀ c ∈ w, isPySpace c = false) :
    ∀ acc : Str, (w ≠ [] ∨ acc ≠ []) → pySplitAux w acc = [acc.reverse ++ w] := by
  induction w with
  | nil =>
    intro acc hne
    rcases hne with h | h
    · exact absurd rfl h
    · rw [pySplitAux, if_neg (by simpa [List.isEmpty_iff] using h)]
      simp
  | cons a as ih =>
    intro acc _
    have ha : isPySpace a = false := hw a (List.mem_cons_self a as)
    rw [pySplitAux, if_neg (by simp [ha])]
    rw [ih (fun c hc => hw c (List.mem_cons_of_mem a hc)) (a :: acc)
      (Or.inr (List.cons_ne_nil a acc))]
    simp

theorem pySplitAux_word_break (w : Str) (hw : ∀ c ∈ w, isPySpace c = false) (l : Str) :
    ∀ acc : Str, (w ≠ [] ∨ acc ≠ []) →
      pySplitAux (w ++ ' ' :: l) acc = (acc.reverse ++ w) :: pySplitAux l [] := by
  induction w with
  | nil =>
    intro acc hne
    rcases hne with h | h
    · exact absurd rfl h
    · rw [List.nil_append, pySplitAux, if_pos (by decide),
        if_neg (by simpa [List.isEmpty_iff] using h)]
      simp
  | cons a as ih =>
    intro acc _
    have ha : isPySpace a = false := hw a (List.mem_cons_self a as)
    rw [List.cons_append, pySplitAux, if_neg (by simp [ha])]
    rw [ih (fun c hc => hw c (List.mem_cons_of_mem a hc)) (a :: acc)
      (Or.inr (List.cons_ne_nil a acc))]
    simp

theorem pySplit_joinSpace (ws : List Str) (h1 : ∀ w ∈ ws, w ≠ [])
    (h2 : ∀ w ∈ ws, ∀ c ∈ w, isPySpace c = false) :
    pySplit (joinSpace ws) = ws := by
  induction ws with
  | nil => rfl
  | cons w rest ih =>
    cases rest with
    | nil =>
      rw [joinSpace_single, pySplit,
        pySplitAux_all_nonspace w (h2 w (List.mem_cons_self w [])) []
          (Or.inl (h1 w (List.mem_cons_self w [])))]
      simp
    | cons v rest2 =>
      rw [joinSpace_cons_cons, pySplit,
        pySplitAux_word_break w (h2 w (List.mem_cons_self _ _)) _ []
          (Or.inl (h1 w (List.mem_cons_self _ _)))]
      rw [List.reverse_nil, List.nil_append]
      exact congrArg (w :: ·)
        (ih (fun u hu => h1 u (List.mem_cons_of_mem w hu))
            (fun u hu => h2 u (List.mem_cons_of_mem w hu)))

theorem kept_to_outChar (c : Char) (h1 : keptChar c = true) (h2 : ¬(c = ':'))
    (h3 : ¬(65 ≤ c.toNat ∧ c.toNat ≤ 90)) (h4 : isPySpace c = false) :
    outChar c = true := by
  simp only [keptChar, isAsciiLetter, Bool.or_eq_true, Bool.and_eq_true,
    decide_eq_true_eq] at h1
  simp only [outChar, Bool.or_eq_true, Bool.and_eq_true, decide_eq_true_eq]
  rcases h1 with (((⟨a1, a2⟩ | ⟨b1, b2⟩) | rfl) | rfl) | hsp
  · exact Or.inl (Or.inl ⟨a1, a2⟩)
  · have hb1 : 65 ≤ c.toNat := b1
    have hb2 : c.toNat ≤ 90 := b2
    exact absurd ⟨hb1, hb2⟩ h3
  · exact Or.inl (Or.inr rfl)
  · exact absurd rfl h2
  · rw [h4] at hsp; exact absurd hsp (by simp)

theorem outChar_kept (c : Char) (h : outChar c = true) : keptChar c = true := by
  simp only [outChar, Bool.or_eq_true, Bool.and_eq_true, decide_eq_true_eq] at h
  simp only [keptChar, isAsciiLetter, Bool.or_eq_true, Bool.and_eq_true,
    decide_eq_true_eq]
  rcases h with (⟨h1, h2⟩ | rfl) | rfl
  · exact Or.inl (Or.inl (Or.inl (Or.inl ⟨h1, h2⟩)))
  · exact Or.inl (Or.inl (Or.inr rfl))
  · exact Or.inr (by decide)

theorem outChar_ne_colon (c : Char) (h : outChar c = true) : ¬(c = ':') := by
  rintro rfl; revert h; decide

theorem clean_text_str_chars (em : Char → Option Str) (x : Str) :
    ∀ c ∈ clean_text_str em x, outChar c = true := by
  intro c hc
  have hzchars : ∀ d ∈ stripColons (stripNonKept (stripUrls (pyLower (demojize em x)))),
      (keptChar d = true ∧ ¬(d = ':')) ∧ ¬(65 ≤ d.toNat ∧ d.toNat ≤ 90) := by
    intro d hd
    have hcol : ¬(d = ':') := by
      have := (List.mem_filter.mp hd).2
      simpa using this
    have hd1 : d ∈ stripNonKept (stripUrls (pyLower (demojize em x))) :=
      (List.mem_filter.mp hd).1
    have hkept : keptChar d = true := (List.mem_filter.mp hd1).2
    have hd2 : d ∈ stripUrls (pyLower (demojize em x)) := (List.mem_filter.mp hd1).1
    have hd3 : d ∈ pyLower (demojize em x) := mem_stripUrls hd2
    rcases List.mem_flatMap.mp hd3 with ⟨e, _, hde⟩
    exact ⟨⟨hkept, hcol⟩, pyLowerChar_not_upper e d hde⟩
  rcases mem_joinSpace _ c hc with ⟨w, hw, hcw⟩ | rfl
  · have hall := pySplitAux_chars
      (fun d => (keptChar d = true ∧ ¬(d = ':')) ∧ ¬(65 ≤ d.toNat ∧ d.toNat ≤ 90))
      _ [] hzchars (by simp) w hw c hcw
    exact kept_to_outChar c hall.1.1.1 hall.1.1.2 hall.1.2 hall.2
  · decide

theorem clean_text_str_idem (em : Char → Option Str) (x : Str)
    (hem : ∀ c, outChar c = true → em c = none)
    (hurl : stripUrls (clean_text_str em x) = clean_text_str em x) :
    clean_text_str em (clean_text_str em x) = clean_text_str em x := by
  have hchars : ∀ c ∈ clean_text_str em x, outChar c = true := clean_text_str_chars em x
  have h1 : demojize em (clean_text_str em x) = clean_text_str em x :=
    demojize_fix em _ hem hchars
  have h2 : pyLower (clean_text_str em x) = clean_text_str em x :=
    pyLower_fix _ hchars
  have h4 : stripNonKept (clean_text_str em x) = clean_text_str em x :=
    List.filter_eq_self.mpr fun c hc => outChar_kept c (hchars c hc)
  have h5 : stripColons (clean_text_str em x) = clean_text_str em x :=
    List.filter_eq_self.mpr fun c hc => by
      simpa using outChar_ne_colon c (hchars c hc)
  have h6 : joinSpace (pySplit (clean_text_str em x)) = clean_text_str em x := by
    have hne : ∀ w ∈ pySplit (stripColons (stripNonKept (stripUrls (pyLower
        (demojize em x))))), w ≠ [] := fun w hw => pySplitAux_ne_nil _ [] w hw
    have hns : ∀ w ∈ pySplit (stripColons (stripNonKept (stripUrls (pyLower
        (demojize em x))))), ∀ c ∈ w, isPySpace c = false := fun w hw c hc =>
      (pySplitAux_chars (fun _ => True) _ [] (fun _ _ => trivial) (by simp) w hw c hc).2
    show joinSpace (pySplit (joinSpace (pySplit _))) = _
    rw [pySplit_joinSpace _ hne hns]
    rfl
  show joinSpace (pySplit (stripColons (stripNonKept (stripUrls (pyLower
    (demojize em (clean_text_str em x))))))) = clean_text_str em x
  rw [h1, h2, hurl, h4, h5]
  exact h6

/-! ### Lemmas about the crawl engine -/

theorem processRefs_new (env : Env) (postId commentId : Str) (refs : List ReplyRef) :
    (∀ w ∈ (processRefs env postId commentId refs).writes,
        newTs env (relWriteTs w) = true) ∧
    (∀ v ∈ (processRefs env postId commentId refs).vecs,
        newTs env v.metadata.timestamp = true) := by
  induction refs with
  | nil => refine ⟨?_, ?_⟩ <;> intro a ha <;> simp [processRefs] at ha
  | cons ref rest ih =>
    refine ⟨?_, ?_⟩ <;> intro a ha <;>
      (simp only [processRefs] at ha
       cases hfr : (fetch_reply env.http ref.id).result with
       | error e => simp [hfr] at ha
       | ok o =>
         cases o with
         | none =>
           rw [hfr] at ha; dsimp only at ha
           first
           | exact ih.1 a ha
           | exact ih.2 a ha
         | some reply =>
           rw [hfr] at ha; dsimp only at ha
           cases hp : env.parseTs reply.timestamp with
           | none => simp [hp] at ha
           | some ts =>
             rw [hp] at ha; dsimp only at ha
             by_cases hlt : env.wm < ts
             · rw [if_pos hlt] at ha
               cases hb : env.embed (clean_text env.emojiMap reply.text) with
               | none => simp [hb] at ha
               | some vals =>
                 rw [hb] at ha; dsimp only at ha
                 simp only [List.mem_cons] at ha
                 rcases ha with rfl | ha
                 · simp [newTs, relWriteTs, replyRowOf, replyVec, hp, hlt]
                 · first
                   | exact ih.1 a ha
                   | exact ih.2 a ha
             · rw [if_neg hlt] at ha
               first
               | exact ih.1 a ha
               | exact ih.2 a ha)

theorem processOneComment_new (env : Env) (postId : Str) (c : CommentJson) :
    (∀ w ∈ (processOneComment env postId c).writes,
        newTs env (relWriteTs w) = true) ∧
    (∀ v ∈ (processOneComment env postId c).vecs,
        newTs env v.metadata.timestamp = true) := by
  refine ⟨?_, ?_⟩ <;> intro a ha <;>
    (simp only [processOneComment] at ha
     cases hp : env.parseTs c.timestamp with
     | none => simp [hp] at ha
     | some ts =>
       rw [hp] at ha; dsimp only at ha
       by_cases hlt : env.wm < ts
       · rw [if_pos hlt] at ha
         cases hb : env.embed (clean_text env.emojiMap c.text) with
         | none => simp [hb] at ha
         | some vals =>
           rw [hb] at ha; dsimp only at ha
           simp only [List.mem_cons] at ha
           rcases ha with rfl | ha
           · simp [newTs, relWriteTs, commentRowOf, commentVec, hp, hlt]
           · first
             | exact (processRefs_new env postId c.id (c.replies.getD [])).1 a ha
             | exact (processRefs_new env postId c.id (c.replies.getD [])).2 a ha
       · rw [if_neg hlt] at ha
         first
         | exact (processRefs_new env postId c.id (c.replies.getD [])).1 a ha
         | exact (processRefs_new env postId c.id (c.replies.getD [])).2 a ha)

theorem processComments_new (env : Env) (postId : Str) (comments : List CommentJson) :
    (∀ w ∈ (processComments env postId comments).writes,
        newTs env (relWriteTs w) = true) ∧
    (∀ v ∈ (processComments env postId comments).vecs,
        newTs env v.metadata.timestamp = true) := by
  induction comments with
  | nil => refine ⟨?_, ?_⟩ <;> intro a ha <;> simp [processComments] at ha
  | cons c rest ih =>
    refine ⟨?_, ?_⟩ <;> intro a ha <;>
      (simp only [processComments] at ha
       by_cases hok : (processOneComment env postId c).ok = true
       · rw [if_pos hok] at ha; dsimp only at ha
         rcases List.mem_append.mp ha with h | h
         · first
           | exact (processOneComment_new env postId c).1 a h
           | exact (processOneComment_new env postId c).2 a h
         · first
           | exact ih.1 a h
           | exact ih.2 a h
       · rw [if_neg hok] at ha
         first
         | exact (processOneComment_new env postId c).1 a ha
         | exact (processOneComment_new env postId c).2 a ha)

theorem processPostUnit_new (env : Env) (p : PostJson) :
    (∀ w ∈ (processPostUnit env p).writes, newTs env (relWriteTs w) = true) ∧
    (∀ v ∈ (processPostUnit env p).vecs, newTs env v.metadata.timestamp = true) := by
  refine ⟨?_, ?_⟩ <;> intro a ha <;>
    (simp only [processPostUnit] at ha
     cases hp : env.parseTs p.timestamp with
     | none => simp [hp] at ha
     | some ts =>
       rw [hp] at ha; dsimp only at ha
       by_cases hlt : env.wm < ts
       · rw [if_pos hlt] at ha
         cases hb : env.embed (clean_text env.emojiMap p.caption) with
         | none => simp [hb] at ha
         | some vals =>
           rw [hb] at ha; dsimp only at ha
           rcases List.mem_append.mp ha with h | h
           · simp only [List.mem_singleton] at h
             subst h
             simp [newTs, relWriteTs, postVec, hp, hlt]
           · first
             | exact (processComments_new env p.id (env.fetchComments p.id)).1 a h
             | exact (processComments_new env p.id (env.fetchComments p.id)).2 a h
       · rw [if_neg hlt] at ha; dsimp only at ha
         rw [List.nil_append] at ha
         first
         | exact (processComments_new env p.id (env.fetchComments p.id)).1 a ha
         | exact (processComments_new env p.id (env.fetchComments p.id)).2 a ha)

theorem processPosts_new (env : Env) (ps : List PostJson) :
    (∀ w ∈ (processPosts env ps).writes, newTs env (relWriteTs w) = true) ∧
    (∀ v ∈ (processPosts env ps).vecs, newTs env v.metadata.timestamp = true) := by
  induction ps with
  | nil => refine ⟨?_, ?_⟩ <;> intro a ha <;> simp [processPosts] at ha
  | cons p rest ih =>
    refine ⟨?_, ?_⟩ <;> intro a ha <;>
      (simp only [processPosts] at ha
       rcases List.mem_append.mp ha with h | h
       · first
         | exact (processPostUnit_new env p).1 a h
         | exact (processPostUnit_new env p).2 a h
       · first
         | exact ih.1 a h
         | exact ih.2 a h)

theorem processRefs_spec (env : Env) (postId commentId : Str) (refs : List ReplyRef)
    (h : refs.all (replyRefOk env) = true) :
    processRefs env postId commentId refs =
      ⟨(refs.flatMap (specRefEntities env postId commentId)).map Prod.fst,
       (refs.flatMap (specRefEntities env postId commentId)).map Prod.snd, true⟩ := by
  induction refs with
  | nil => rfl
  | cons ref rest ih =>
    rw [List.all_cons, Bool.and_eq_true] at h
    obtain ⟨h1, h2⟩ := h
    rw [processRefs]
    unfold replyRefOk at h1
    cases hfr : (fetch_reply env.http ref.id).result with
    | error e => rw [hfr] at h1; simp at h1
    | ok o =>
      cases o with
      | none =>
        dsimp only
        rw [ih h2]
        simp [List.flatMap_cons, specRefEntities, resolvedReply, hfr]
      | some reply =>
        rw [hfr] at h1
        dsimp only at h1 ⊢
        cases hp : env.parseTs reply.timestamp with
        | none => rw [hp] at h1; simp at h1
        | some ts =>
          rw [hp] at h1
          dsimp only at h1 ⊢
          by_cases hlt : env.wm < ts
          · rw [if_pos hlt]
            have hemb : (env.embed (clean_text env.emojiMap reply.text)).isSome = true := by
              simpa [hlt] using h1
            obtain ⟨vals, hb⟩ := Option.isSome_iff_exists.mp hemb
            rw [hb]; dsimp only
            rw [ih h2]
            simp [List.flatMap_cons, specRefEntities, resolvedReply, hfr, hp, newTs,
              hlt, embedOf, hb]
          · rw [if_neg hlt]
            rw [ih h2]
            simp [List.flatMap_cons, specRefEntities, resolvedReply, hfr, hp, newTs, hlt]

theorem processOneComment_spec (env : Env) (postId : Str) (c : CommentJson)
    (h : commentOk env c = true) :
    processOneComment env postId c =
      ⟨(specCommentEntities env postId c).map Prod.fst,
       (specCommentEntities env postId c).map Prod.snd, true⟩ := by
  unfold commentOk at h
  rw [Bool.and_eq_true] at h
  obtain ⟨h1, h2⟩ := h
  rw [processOneComment]
  cases hp : env.parseTs c.timestamp with
  | none => rw [hp] at h1; simp at h1
  | some ts =>
    rw [hp] at h1
    dsimp only at h1 ⊢
    by_cases hlt : env.wm < ts
    · rw [if_pos hlt]
      have hemb : (env.embed (clean_text env.emojiMap c.text)).isSome = true := by
        simpa [hlt] using h1
      obtain ⟨vals, hb⟩ := Option.isSome_iff_exists.mp hemb
      rw [hb]; dsimp only
      rw [processRefs_spec env postId c.id (c.replies.getD []) h2]
      simp [specCommentEntities, newTs, hp, hlt, embedOf, hb]
    · rw [if_neg hlt]
      rw [processRefs_spec env postId c.id (c.replies.getD []) h2]
      simp [specCommentEntities, newTs, hp, hlt]

theorem processComments_spec (env : Env) (postId : Str) (comments : List CommentJson)
    (h : comments.all (commentOk env) = true) :
    processComments env postId comments =
      ⟨(comments.flatMap (specCommentEntities env postId)).map Prod.fst,
       (comments.flatMap (specCommentEntities env postId)).map Prod.snd, true⟩ := by
  induction comments with
  | nil => rfl
  | cons c rest ih =>
    rw [List.all_cons, Bool.and_eq_true] at h
    obtain ⟨h1, h2⟩ := h
    rw [processComments, processOneComment_spec env postId c h1, ih h2]
    simp [List.flatMap_cons]

theorem processPostUnit_spec (env : Env) (p : PostJson) (h : postOk env p = true) :
    processPostUnit env p =
      ⟨(specPostEntities env p).map Prod.fst,
       (specPostEntities env p).map Prod.snd, true, true⟩ := by
  unfold postOk at h
  rw [Bool.and_eq_true] at h
  obtain ⟨h1, h2⟩ := h
  unfold postHeadOk at h1
  rw [processPostUnit]
  cases hp : env.parseTs p.timestamp with
  | none => rw [hp] at h1; simp at h1
  | some ts =>
    rw [hp] at h1
    dsimp only at h1 ⊢
    by_cases hlt : env.wm < ts
    · rw [if_pos hlt]
      have hemb : (env.embed (clean_text env.emojiMap p.caption)).isSome = true := by
        simpa [hlt] using h1
      obtain ⟨vals, hb⟩ := Option.isSome_iff_exists.mp hemb
      rw [hb]; dsimp only
      rw [processComments_spec env p.id (env.fetchComments p.id) h2]
      simp [specPostEntities, newTs, hp, hlt, embedOf, hb]
    · rw [if_neg hlt]; dsimp only
      rw [processComments_spec env p.id (env.fetchComments p.id) h2]
      simp [specPostEntities, newTs, hp, hlt]

theorem processPosts_spec (env : Env) (ps : List PostJson)
    (h : ps.all (postOk env) = true) :
    processPosts env ps =
      ⟨(ps.flatMap (specPostEntities env)).map Prod.fst,
       (ps.flatMap (specPostEntities env)).map Prod.snd,
       ps.map (fun p => p.id), ps.map (fun p => p.id)⟩ := by
  induction ps with
  | nil => rfl
  | cons p rest ih =>
    rw [List.all_cons, Bool.and_eq_true] at h
    obtain ⟨h1, h2⟩ := h
    rw [processPosts, processPostUnit_spec env p h1, ih h2]
    simp [List.flatMap_cons]

theorem processRefs_rowOrigin (env : Env) (postId commentId : Str)
    (refs : List ReplyRef) :
    ∀ w ∈ (processRefs env postId commentId refs).writes,
      ∃ ref ∈ refs, ∃ rep, resolvedReply env ref = some rep ∧
        w = RelWrite.commentRow (replyRowOf postId commentId rep) := by
  induction refs with
  | nil => intro w hw; simp [processRefs] at hw
  | cons ref rest ih =>
    intro w hw
    simp only [processRefs] at hw
    cases hfr : (fetch_reply env.http ref.id).result with
    | error e => simp [hfr] at hw
    | ok o =>
      cases o with
      | none =>
        rw [hfr] at hw; dsimp only at hw
        obtain ⟨r2, hr2, rep, hrep, hweq⟩ := ih w hw
        exact ⟨r2, List.mem_cons_of_mem ref hr2, rep, hrep, hweq⟩
      | some reply =>
        rw [hfr] at hw; dsimp only at hw
        cases hp : env.parseTs reply.timestamp with
        | none => simp [hp] at hw
        | some ts =>
          rw [hp] at hw; dsimp only at hw
          by_cases hlt : env.wm < ts
          · rw [if_pos hlt] at hw
            cases hb : env.embed (clean_text env.emojiMap reply.text) with
            | none => simp [hb] at hw
            | some vals =>
              rw [hb] at hw; dsimp only at hw
              simp only [List.mem_cons] at hw
              rcases hw with rfl | hw
              · exact ⟨ref, List.mem_cons_self _ _, reply,
                  by simp [resolvedReply, hfr], rfl⟩
              · obtain ⟨r2, hr2, rep, hrep, hweq⟩ := ih w hw
                exact ⟨r2, List.mem_cons_of_mem ref hr2, rep, hrep, hweq⟩
          · rw [if_neg hlt] at hw
            obtain ⟨r2, hr2, rep, hrep, hweq⟩ := ih w hw
            exact ⟨r2, List.mem_cons_of_mem ref hr2, rep, hrep, hweq⟩

theorem processOneComment_rowOrigin (env : Env) (postId : Str) (c : CommentJson) :
    ∀ w ∈ (processOneComment env postId c).writes,
      w = RelWrite.commentRow (commentRowOf postId c) ∨
        ∃ ref ∈ c.replies.getD [], ∃ rep, resolvedReply env ref = some rep ∧
          w = RelWrite.commentRow (replyRowOf postId c.id rep) := by
  intro w hw
  simp only [processOneComment] at hw
  cases hp : env.parseTs c.timestamp with
  | none => simp [hp] at hw
  | some ts =>
    rw [hp] at hw; dsimp only at hw
    by_cases hlt : env.wm < ts
    · rw [if_pos hlt] at hw
      cases hb : env.embed (clean_text env.emojiMap c.text) with
      | none => simp [hb] at hw
      | some vals =>
        rw [hb] at hw; dsimp only at hw
        simp only [List.mem_cons] at hw
        rcases hw with rfl | hw
        · exact Or.inl rfl
        · obtain ⟨ref, href, rep, hrep, hweq⟩ :=
            processRefs_rowOrigin env postId c.id (c.replies.getD []) w hw
          exact Or.inr ⟨ref, href, rep, hrep, hweq⟩
    · rw [if_neg hlt] at hw
      obtain ⟨ref, href, rep, hrep, hweq⟩ :=
        processRefs_rowOrigin env postId c.id (c.replies.getD []) w hw
      exact Or.inr ⟨ref, href, rep, hrep, hweq⟩

theorem processComments_rowOrigin (env : Env) (postId : Str)
    (comments : List CommentJson) :
    ∀ w ∈ (processComments env postId comments).writes,
      ∃ c ∈ comments,
        w = RelWrite.commentRow (commentRowOf postId c) ∨
          ∃ ref ∈ c.replies.getD [], ∃ rep, resolvedReply env ref = some rep ∧
            w = RelWrite.commentRow (replyRowOf postId c.id rep) := by
  induction comments with
  | nil => intro w hw; simp [processComments] at hw
  | cons c rest ih =>
    intro w hw
    simp only [processComments] at hw
    by_cases hok : (processOneComment env postId c).ok = true
    · rw [if_pos hok] at hw; dsimp only at hw
      rcases List.mem_append.mp hw with h | h
      · exact ⟨c, List.mem_cons_self _ _, processOneComment_rowOrigin env postId c w h⟩
      · obtain ⟨c2, hc2, hrest⟩ := ih w h
        exact ⟨c2, List.mem_cons_of_mem c hc2, hrest⟩
    · rw [if_neg hok] at hw
      exact ⟨c, List.mem_cons_self _ _, processOneComment_rowOrigin env postId c w hw⟩

theorem processPostUnit_rowOrigin (env : Env) (p : PostJson) :
    ∀ w ∈ (processPostUnit env p).writes,
      w = RelWrite.postRow p ∨
        ∃ c ∈ env.fetchComments p.id,
          w = RelWrite.commentRow (commentRowOf p.id c) ∨
            ∃ ref ∈ c.replies.getD [], ∃ rep, resolvedReply env ref = some rep ∧
              w = RelWrite.commentRow (replyRowOf p.id c.id rep) := by
  intro w hw
  simp only [processPostUnit] at hw
  cases hp : env.parseTs p.timestamp with
  | none => simp [hp] at hw
  | some ts =>
    rw [hp] at hw; dsimp only at hw
    by_cases hlt : env.wm < ts
    · rw [if_pos hlt] at hw
      cases hb : env.embed (clean_text env.emojiMap p.caption) with
      | none => simp [hb] at hw
      | some vals =>
        rw [hb] at hw; dsimp only at hw
        rcases List.mem_append.mp hw with h | h
        · simp only [List.mem_singleton] at h
          exact Or.inl h
        · exact Or.inr (processComments_rowOrigin env p.id (env.fetchComments p.id) w h)
    · rw [if_neg hlt] at hw; dsimp only at hw
      rw [List.nil_append] at hw
      exact Or.inr (processComments_rowOrigin env p.id (env.fetchComments p.id) w hw)

theorem processPosts_rowOrigin (env : Env) (ps : List PostJson) :
    ∀ w ∈ (processPosts env ps).writes,
      ∃ p ∈ ps,
        w = RelWrite.postRow p ∨
          ∃ c ∈ env.fetchComments p.id,
            w = RelWrite.commentRow (commentRowOf p.id c) ∨
              ∃ ref ∈ c.replies.getD [], ∃ rep, resolvedReply env ref = some rep ∧
                w = RelWrite.commentRow (replyRowOf p.id c.id rep) := by
  induction ps with
  | nil => intro w hw; simp [processPosts] at hw
  | cons p rest ih =>
    intro w hw
    simp only [processPosts] at hw
    rcases List.mem_append.mp hw with h | h
    · exact ⟨p, List.mem_cons_self _ _, processPostUnit_rowOrigin env p w h⟩
    · obtain ⟨p2, hp2, hrest⟩ := ih w h
      exact ⟨p2, List.mem_cons_of_mem p hp2, hrest⟩

theorem processRefs_vecOrigin (env : Env) (postId commentId : Str)
    (refs : List ReplyRef) :
    ∀ v ∈ (processRefs env postId commentId refs).vecs,
      ∃ ref ∈ refs, ∃ rep vals, resolvedReply env ref = some rep ∧
        env.embed (clean_text env.emojiMap rep.text) = some vals ∧
        v = replyVec env postId commentId rep vals := by
  induction refs with
  | nil => intro v hv; simp [processRefs] at hv
  | cons ref rest ih =>
    intro v hv
    simp only [processRefs] at hv
    cases hfr : (fetch_reply env.http ref.id).result with
    | error e => simp [hfr] at hv
    | ok o =>
      cases o with
      | none =>
        rw [hfr] at hv; dsimp only at hv
        obtain ⟨r2, hr2, rep, vals, hrep, hemb, hveq⟩ := ih v hv
        exact ⟨r2, List.mem_cons_of_mem ref hr2, rep, vals, hrep, hemb, hveq⟩
      | some reply =>
        rw [hfr] at hv; dsimp only at hv
        cases hp : env.parseTs reply.timestamp with
        | none => simp [hp] at hv
        | some ts =>
          rw [hp] at hv; dsimp only at hv
          by_cases hlt : env.wm < ts
          · rw [if_pos hlt] at hv
            cases hb : env.embed (clean_text env.emojiMap reply.text) with
            | none => simp [hb] at hv
            | some vals =>
              rw [hb] at hv; dsimp only at hv
              simp only [List.mem_cons] at hv
              rcases hv with rfl | hv
              · exact ⟨ref, List.mem_cons_self _ _, reply, vals,
                  by simp [resolvedReply, hfr], hb, rfl⟩
              · obtain ⟨r2, hr2, rep, vals2, hrep, hemb, hveq⟩ := ih v hv
                exact ⟨r2, List.mem_cons_of_mem ref hr2, rep, vals2, hrep, hemb, hveq⟩
          · rw [if_neg hlt] at hv
            obtain ⟨r2, hr2, rep, vals2, hrep, hemb, hveq⟩ := ih v hv
            exact ⟨r2, List.mem_cons_of_mem ref hr2, rep, vals2, hrep, hemb, hveq⟩

theorem processOneComment_vecOrigin (env : Env) (postId : Str) (c : CommentJson) :
    ∀ v ∈ (processOneComment env postId c).vecs,
      (∃ vals, env.embed (clean_text env.emojiMap c.text) = some vals ∧
        v = commentVec env postId c vals) ∨
        ∃ ref ∈ c.replies.getD [], ∃ rep vals, resolvedReply env ref = some rep ∧
          env.embed (clean_text env.emojiMap rep.text) = some vals ∧
          v = replyVec env postId c.id rep vals := by
  intro v hv
  simp only [processOneComment] at hv
  cases hp : env.parseTs c.timestamp with
  | none => simp [hp] at hv
  | some ts =>
    rw [hp] at hv; dsimp only at hv
    by_cases hlt : env.wm < ts
    · rw [if_pos hlt] at hv
      cases hb : env.embed (clean_text env.emojiMap c.text) with
      | none => simp [hb] at hv
      | some vals =>
        rw [hb] at hv; dsimp only at hv
        simp only [List.mem_cons] at hv
        rcases hv with rfl | hv
        · exact Or.inl ⟨vals, rfl, rfl⟩
        · obtain ⟨ref, href, rep, vals2, hrep, hemb, hveq⟩ :=
            processRefs_vecOrigin env postId c.id (c.replies.getD []) v hv
          exact Or.inr ⟨ref, href, rep, vals2, hrep, hemb, hveq⟩
    · rw [if_neg hlt] at hv
      obtain ⟨ref, href, rep, vals2, hrep, hemb, hveq⟩ :=
        processRefs_vecOrigin env postId c.id (c.replies.getD []) v hv
      exact Or.inr ⟨ref, href, rep, vals2, hrep, hemb, hveq⟩

theorem processComments_vecOrigin (env : Env) (postId : Str)
    (comments : List CommentJson) :
    ∀ v ∈ (processComments env postId comments).vecs,
      ∃ c ∈ comments,
        (∃ vals, env.embed (clean_text env.emojiMap c.text) = some vals ∧
          v = commentVec env postId c vals) ∨
          ∃ ref ∈ c.replies.getD [], ∃ rep vals, resolvedReply env ref = some rep ∧
            env.embed (clean_text env.emojiMap rep.text) = some vals ∧
            v = replyVec env postId c.id rep vals := by
  induction comments with
  | nil => intro v hv; simp [processComments] at hv
  | cons c rest ih =>
    intro v hv
    simp only [processComments] at hv
    by_cases hok : (processOneComment env postId c).ok = true
    · rw [if_pos hok] at hv; dsimp only at hv
      rcases List.mem_append.mp hv with h | h
      · exact ⟨c, List.mem_cons_self _ _, processOneComment_vecOrigin env postId c v h⟩
      · obtain ⟨c2, hc2, hrest⟩ := ih v h
        exact ⟨c2, List.mem_cons_of_mem c hc2, hrest⟩
    · rw [if_neg hok] at hv
      exact ⟨c, List.mem_cons_self _ _, processOneComment_vecOrigin env postId c v hv⟩

theorem processPostUnit_vecOrigin (env : Env) (p : PostJson) :
    ∀ v ∈ (processPostUnit env p).vecs,
      (∃ vals, env.embed (clean_text env.emojiMap p.caption) = some vals ∧
        v = postVec env p vals) ∨
        ∃ c ∈ env.fetchComments p.id,
          (∃ vals, env.embed (clean_text env.emojiMap c.text) = some vals ∧
            v = commentVec env p.id c vals) ∨
            ∃ ref ∈ c.replies.getD [], ∃ rep vals, resolvedReply env ref = some rep ∧
              env.embed (clean_text env.emojiMap rep.text) = some vals ∧
              v = replyVec env p.id c.id rep vals := by
  intro v hv
  simp only [processPostUnit] at hv
  cases hp : env.parseTs p.timestamp with
  | none => simp [hp] at hv
  | some ts =>
    rw [hp] at hv; dsimp only at hv
    by_cases hlt : env.wm < ts
    · rw [if_pos hlt] at hv
      cases hb : env.embed (clean_text env.emojiMap p.caption) with
      | none => simp [hb] at hv
      | some vals =>
        rw [hb] at hv; dsimp only at hv
        rcases List.mem_append.mp hv with h | h
        · simp only [List.mem_singleton] at h
          exact Or.inl ⟨vals, rfl, h⟩
        · exact Or.inr (processComments_vecOrigin env p.id (env.fetchComments p.id) v h)
    · rw [if_neg hlt] at hv; dsimp only at hv
      rw [List.nil_append] at hv
      exact Or.inr (processComments_vecOrigin env p.id (env.fetchComments p.id) v hv)

theorem processPosts_vecOrigin (env : Env) (ps : List PostJson) :
    ∀ v ∈ (processPosts env ps).vecs,
      ∃ p ∈ ps,
        (∃ vals, env.embed (clean_text env.emojiMap p.caption) = some vals ∧
          v = postVec env p vals) ∨
          ∃ c ∈ env.fetchComments p.id,
            (∃ vals, env.embed (clean_text env.emojiMap c.text) = some vals ∧
              v = commentVec env p.id c vals) ∨
              ∃ ref ∈ c.replies.getD [], ∃ rep vals, resolvedReply env ref = some rep ∧
                env.embed (clean_text env.emojiMap rep.text) = some vals ∧
                v = replyVec env p.id c.id rep vals := by
  induction ps with
  | nil => intro v hv; simp [processPosts] at hv
  | cons p rest ih =>
    intro v hv
    simp only [processPosts] at hv
    rcases List.mem_append.mp hv with h | h
    · exact ⟨p, List.mem_cons_self _ _, processPostUnit_vecOrigin env p v h⟩
    · obtain ⟨p2, hp2, hrest⟩ := ih v h
      exact ⟨p2, List.mem_cons_of_mem p hp2, hrest⟩

theorem processPosts_attempted (env : Env) (ps : List PostJson) :
    (processPosts env ps).attempted = ps.map (fun p => p.id) := by
  induction ps with
  | nil => rfl
  | cons p rest ih => rw [processPosts]; simp [ih]

theorem processPostUnit_fetchedComments (env : Env) (p : PostJson)
    (h : postHeadOk env p = true) :
    (processPostUnit env p).fetchedComments = true := by
  unfold postHeadOk at h
  rw [processPostUnit]
  cases hp : env.parseTs p.timestamp with
  | none => rw [hp] at h; simp at h
  | some ts =>
    rw [hp] at h
    dsimp only at h ⊢
    by_cases hlt : env.wm < ts
    · rw [if_pos hlt]
      cases hb : env.embed (clean_text env.emojiMap p.caption) with
      | none =>
        rw [hb] at h
        simp [hlt] at h
      | some vals => rfl
    · rw [if_neg hlt]

theorem processPosts_fetches (env : Env) (ps : List PostJson)
    (h : ∀ p ∈ ps, postHeadOk env p = true) :
    (processPosts env ps).commentFetches = ps.map (fun p => p.id) := by
  induction ps with
  | nil => rfl
  | cons p rest ih =>
    rw [processPosts]
    have h1 := processPostUnit_fetchedComments env p (h p (List.mem_cons_self p rest))
    have h2 := ih fun q hq => h q (List.mem_cons_of_mem p hq)
    simp [h1, h2]

theorem storedTrajectory_chain (envs : List Env) (s0 : Nat)
    (hle : ∀ e ∈ envs, s0 ≤ e.now)
    (hmono : (envs.map Env.now).Pairwise (· ≤ ·)) :
    List.Chain' (· ≤ ·) (s0 :: storedTrajectory s0 envs) := by
  induction envs generalizing s0 with
  | nil => simp [storedTrajectory]
  | cons e rest ih =>
    simp only [storedTrajectory]
    have hs1 : storedAfterRun e s0 = s0 ∨ storedAfterRun e s0 = e.now := by
      unfold storedAfterRun
      cases process_and_upload_data e with
      | ok o => exact Or.inr rfl
      | error er => exact Or.inl rfl
    rw [List.map_cons, List.pairwise_cons] at hmono
    obtain ⟨hhead, htail⟩ := hmono
    rw [List.chain'_cons]
    constructor
    · rcases hs1 with h | h
      · exact le_of_eq h.symm
      · rw [h]; exact hle e (List.mem_cons_self e rest)
    · apply ih
      · intro e2 he2
        rcases hs1 with h | h
        · rw [h]; exact hle e2 (List.mem_cons_of_mem e he2)
        · rw [h]; exact hhead e2.now (List.mem_map_of_mem Env.now he2)
      · exact htail

theorem mem_spec_writes_post (env : Env) (ps : List PostJson) (p : PostJson)
    (hp : p ∈ ps) (hnew : newTs env p.timestamp = true) :
    RelWrite.postRow p ∈ (ps.flatMap (specPostEntities env)).map Prod.snd := by
  refine List.mem_map.mpr
    ⟨(postVec env p (embedOf env (clean_text env.emojiMap p.caption)),
      RelWrite.postRow p), ?_, rfl⟩
  refine List.mem_flatMap.mpr ⟨p, hp, ?_⟩
  unfold specPostEntities
  rw [if_pos hnew]
  exact List.mem_append_left _ (List.mem_cons_self _ _)

theorem mem_spec_writes_comment (env : Env) (ps : List PostJson) (p : PostJson)
    (c : CommentJson) (hp : p ∈ ps) (hc : c ∈ env.fetchComments p.id)
    (hnew : newTs env c.timestamp = true) :
    RelWrite.commentRow (commentRowOf p.id c) ∈
      (ps.flatMap (specPostEntities env)).map Prod.snd := by
  refine List.mem_map.mpr
    ⟨(commentVec env p.id c (embedOf env (clean_text env.emojiMap c.text)),
      RelWrite.commentRow (commentRowOf p.id c)), ?_, rfl⟩
  refine List.mem_flatMap.mpr ⟨p, hp, ?_⟩
  unfold specPostEntities
  refine List.mem_append_right _ ?_
  refine List.mem_flatMap.mpr ⟨c, hc, ?_⟩
  unfold specCommentEntities
  rw [if_pos hnew]
  exact List.mem_append_left _ (List.mem_cons_self _ _)

theorem mem_spec_writes_reply (env : Env) (ps : List PostJson) (p : PostJson)
    (c : CommentJson) (ref : ReplyRef) (rep : ReplyJson) (hp : p ∈ ps)
    (hc : c ∈ env.fetchComments p.id) (href : ref ∈ c.replies.getD [])
    (hres : resolvedReply env ref = some rep)
    (hnew : newTs env rep.timestamp = true) :
    RelWrite.commentRow (replyRowOf p.id c.id rep) ∈
      (ps.flatMap (specPostEntities env)).map Prod.snd := by
  refine List.mem_map.mpr
    ⟨(replyVec env p.id c.id rep (embedOf env (clean_text env.emojiMap rep.text)),
      RelWrite.commentRow (replyRowOf p.id c.id rep)), ?_, rfl⟩
  refine List.mem_flatMap.mpr ⟨p, hp, ?_⟩
  unfold specPostEntities
  refine List.mem_append_right _ ?_
  refine List.mem_flatMap.mpr ⟨c, hc, ?_⟩
  unfold specCommentEntities
  refine List.mem_append_right _ ?_
  refine List.mem_flatMap.mpr ⟨ref, href, ?_⟩
  unfold specRefEntities
  rw [hres]
  dsimp only
  rw [if_pos hnew]
  exact List.mem_cons_self _ _

theorem mprLoop_allFail {α : Type} (http : Str → Option (RawPage α)) (d : Nat)
    (u : Str) (acc : List α) (sleeps : List Nat) (reqs : List Str)
    (hfail : http u = none) :
    ∀ fuel, 4 ≤ fuel →
      mprLoop http 3 d fuel (some u) 0 acc sleeps reqs =
        some ⟨acc, sleeps ++ [d * 2 ^ 1, d * 2 ^ 2, d * 2 ^ 3], reqs ++ [u, u, u]⟩ := by
  intro fuel hfuel
  obtain ⟨k, rfl⟩ : ∃ k, fuel = k + 4 := ⟨fuel - 4, by omega⟩
  show mprLoop http 3 d (k + 4) (some u) 0 acc sleeps reqs = _
  rw [mprLoop, if_pos (by norm_num), hfail]
  rw [mprLoop, if_pos (by norm_num), hfail]
  rw [mprLoop, if_pos (by norm_num), hfail]
  rw [mprLoop, if_neg (by norm_num)]
  simp [List.append_assoc]

theorem mprLoop_chain {α : Type} [DecidableEq α] (http : Str → Option (RawPage α))
    (maxR d : Nat) (hmax : 0 < maxR) :
    ∀ (chain : List (Str × RawPage α)) (u : Str) (fuel : Nat) (acc : List α)
      (sleeps : List Nat) (reqs : List Str),
      pageChain http u chain = true → chain.length + 1 ≤ fuel →
      mprLoop http maxR d fuel (some u) 0 acc sleeps reqs =
        some ⟨acc ++ (chain.map (fun pr => pr.2.dataField.getD [])).flatten,
              sleeps ++ List.replicate (chain.length - 1) d,
              reqs ++ chain.map Prod.fst⟩ := by
  intro chain
  induction chain with
  | nil => intro u fuel acc sleeps reqs hch _; simp [pageChain] at hch
  | cons pr rest ih =>
    intro u fuel acc sleeps reqs hch hfuel
    obtain ⟨u1, p1⟩ := pr
    cases rest with
    | nil =>
      simp only [pageChain, Bool.and_eq_true, decide_eq_true_eq] at hch
      obtain ⟨⟨rfl, hhttp⟩, hnext⟩ := hch
      have hlen : 2 ≤ fuel := by simp only [List.length_cons, List.length_nil] at hfuel; omega
      obtain ⟨k, rfl⟩ : ∃ k, fuel = k + 2 := ⟨fuel - 2, by omega⟩
      rw [mprLoop, if_pos hmax, hhttp]
      dsimp only
      rw [hnext, mprLoop]
      simp
    | cons pr2 rest2 =>
      obtain ⟨u2, p2⟩ := pr2
      simp only [pageChain, Bool.and_eq_true, decide_eq_true_eq] at hch
      obtain ⟨⟨⟨rfl, hhttp⟩, hnext⟩, hch2⟩ := hch
      have hlen : ((u2, p2) :: rest2).length + 2 ≤ fuel := by
        simp only [List.length_cons] at hfuel ⊢; omega
      obtain ⟨k, rfl⟩ : ∃ k, fuel = k + 1 := ⟨fuel - 1, by omega⟩
      rw [mprLoop, if_pos hmax, hhttp]
      dsimp only
      rw [hnext]
      rw [if_pos (show (some u2).isSome = true by simp)]
      rw [ih u2 k (acc ++ p1.dataField.getD []) (sleeps ++ [d]) (reqs ++ [u])
        hch2 (by simp only [List.length_cons] at hlen ⊢; omega)]
      simp [List.append_assoc, List.replicate_succ]

/-! ### Claim theorems -/

/-- C1: `run` persists a new watermark — set to the current UTC time —
only after `process_and_upload_data` completes without a fatal error; a
fatal error propagating out of the pass leaves the stored watermark
unchanged; and across consecutive runs whose clock readings are monotone
and no earlier than the initially stored value, the stored watermark
sequence is non-decreasing (successful runs advance it, failed runs keep
it). -/
theorem C1_run_watermark :
    (∀ (env : Env) (stored : Nat) (e : Unit),
      process_and_upload_data env = .error e → storedAfterRun env stored = stored) ∧
    (∀ (env : Env) (stored : Nat),
      (∃ out, process_and_upload_data env = .ok out) →
      storedAfterRun env stored = env.now) ∧
    (∀ (envs : List Env) (s0 : Nat), (∀ e ∈ envs, s0 ≤ e.now) →
      (envs.map Env.now).Pairwise (· ≤ ·) →
      List.Chain' (· ≤ ·) (s0 :: storedTrajectory s0 envs)) := by
  refine ⟨?_, ?_, ?_⟩
  · intro env stored e h
    unfold storedAfterRun
    rw [h]
  · intro env stored ⟨out, h⟩
    unfold storedAfterRun
    rw [h]
  · exact storedTrajectory_chain

/-- C1 witness: a fatal run (`envFatal`, failing batch upsert) leaves the
stored watermark 3 unchanged; a successful run stores its `now`; a
successful run followed by a fatal one yields the non-decreasing stored
sequence `3, 5, 5`. -/
theorem C1_run_watermark_witness :
    storedAfterRun envFatal 3 = 3 ∧ storedAfterRun envGood 3 = 5 ∧
    List.Chain' (· ≤ ·) (3 :: storedTrajectory 3 [envGood, envFatal]) :=
  ⟨C1_run_watermark.1 envFatal 3 () rfl,
   C1_run_watermark.2.1 envGood 3 ⟨_, rfl⟩,
   C1_run_watermark.2.2 [envGood, envFatal] 3 (by decide) (by decide)⟩

/-- C2 counterexample: in `envC2x` the single post's unit raises — the
second comment's timestamp fails to parse, so `ok = false` — yet the
relational upsert for the first, new comment, issued before the failure,
remains in the run's write-set, refuting "no partial writes are issued
for the failed post's new entities discovered before the failure". -/
theorem C2_cex :
    (processPostUnit envC2x ⟨"p9".toList, none, "t5".toList, none, none⟩).ok = false ∧
    (processPosts envC2x envC2x.posts).writes =
      [RelWrite.commentRow (commentRowOf ("p9".toList)
        ⟨"c9".toList, some "Hey".toList, "t20".toList, none, none⟩)] ∧
    (processPosts envC2x envC2x.posts).writes ≠ [] := by
  refine ⟨by decide, by decide, by decide⟩

/-- C2 (amended): any exception inside one post's unit is caught at that
post's boundary and the run continues with the next post — the loop
attempts every post of its input — but the failed unit's effects issued
before the failure are kept: the loop output is the concatenation of
every unit's (possibly partial) staged vectors and executed upserts. -/
theorem C2_per_post_guard :
    (∀ (env : Env) (ps : List PostJson),
      (processPosts env ps).attempted = ps.map (fun p => p.id)) ∧
    (∀ (env : Env) (p : PostJson) (rest : List PostJson),
      (processPosts env (p :: rest)).writes =
        (processPostUnit env p).writes ++ (processPosts env rest).writes ∧
      (processPosts env (p :: rest)).vecs =
        (processPostUnit env p).vecs ++ (processPosts env rest).vecs) :=
  ⟨processPosts_attempted, fun _ _ _ => ⟨rfl, rfl⟩⟩

/-- C3 counterexample: `clean_text` is not idempotent: on `"ht:tpx"` the
colon strip — which runs after URL stripping — creates the token
`"httpx"`, which a second application removes as a URL match, so
`clean_text (clean_text "ht:tpx") = "" ≠ "httpx" = clean_text "ht:tpx"`. -/
theorem C3_cex :
    clean_text emWave (some (clean_text emWave (some ("ht:tpx".toList)))) ≠
      clean_text emWave (some ("ht:tpx".toList)) := by decide

/-- C3 (amended): `clean_text` is a deterministic, pure function, and it
is idempotent on every input whose cleaned form contains no occurrence of
the URL patterns (i.e. `stripUrls` fixes the cleaned form), for any emoji
dictionary that names no character of the cleaned alphabet; full
idempotence fails (see the counterexample). -/
theorem C3_clean_text_idem (em : Char → Option Str) (x : Str)
    (hem : ∀ c, outChar c = true → em c = none)
    (hurl : stripUrls (clean_text_str em x) = clean_text_str em x) :
    clean_text em (some (clean_text em (some x))) = clean_text em (some x) :=
  clean_text_str_idem em x hem hurl

/-- C3 witness: the amended idempotence at the concrete input
`"hello world"` under the waving-hand emoji dictionary. -/
theorem C3_clean_text_idem_witness :
    clean_text emWave (some (clean_text emWave (some ("hello world".toList)))) =
      clean_text emWave (some ("hello world".toList)) :=
  C3_clean_text_idem emWave ("hello world".toList)
    (fun c hc => by
      by_cases h : c = '👋'
      · subst h; exact absurd hc (by decide)
      · simp [emWave, h])
    (by decide)

/-- C4: when every request for a page fails, the paginated fetch loop
retries the same URL, making exactly `max_retries = 3` attempts (the
requested-URL trace is `u, u, u`) with exponential backoff sleeps
`d·2^1, d·2^2, d·2^3` for base delay `d`, and then returns the records
accumulated so far — empty or partial — without raising. -/
theorem C4_retry_cap {α : Type} (http : Str → Option (RawPage α)) (d : Nat)
    (u : Str) (acc : List α) (sleeps : List Nat) (reqs : List Str) (fuel : Nat)
    (hfail : http u = none) (hfuel : 4 ≤ fuel) :
    mprLoop http 3 d fuel (some u) 0 acc sleeps reqs =
      some ⟨acc, sleeps ++ [d * 2 ^ 1, d * 2 ^ 2, d * 2 ^ 3], reqs ++ [u, u, u]⟩ :=
  mprLoop_allFail http d u acc sleeps reqs hfail fuel hfuel

/-- C4 witness: the always-failing oracle with base delay 1 makes three
requests to the same URL, sleeps 2, 4, 8, and returns the (empty)
accumulation. -/
theorem C4_retry_cap_witness :
    mprLoop httpAllFail 3 1 4 (some ("u1".toList)) 0 [] [] [] =
      some ⟨[], [2, 4, 8], ["u1".toList, "u1".toList, "u1".toList]⟩ := by
  have h := C4_retry_cap httpAllFail 1 ("u1".toList) [] [] [] 4 rfl (by decide)
  simpa using h

/-- C5: newness is decided by the single rule "the timestamp parses and is
strictly greater than the watermark read at run start", applied
independently at each hierarchy level: every relational write and every
staged vector of a run satisfies it (so entities that are not new are
written to neither store); comments are fetched for every post — new and
old — whenever the post's pre-fetch steps do not raise; and on an
exception-free run the loop output coincides exactly with the spec-side
filter crawl over posts, comments and resolved replies. -/
theorem C5_watermark_rule (env : Env) :
    (∀ w ∈ (processPosts env env.posts).writes, newTs env (relWriteTs w) = true) ∧
    (∀ v ∈ (processPosts env env.posts).vecs,
      newTs env v.metadata.timestamp = true) ∧
    ((∀ p ∈ env.posts, postHeadOk env p = true) →
      (processPosts env env.posts).commentFetches =
        env.posts.map (fun p => p.id)) ∧
    (envOk env = true →
      processPosts env env.posts =
        ⟨(env.posts.flatMap (specPostEntities env)).map Prod.fst,
         (env.posts.flatMap (specPostEntities env)).map Prod.snd,
         env.posts.map (fun p => p.id), env.posts.map (fun p => p.id)⟩) :=
  ⟨(processPosts_new env env.posts).1, (processPosts_new env env.posts).2,
   processPosts_fetches env env.posts, fun h => processPosts_spec env env.posts h⟩

/-- C5 witness: in the healthy two-post environment `envW` (one new and
one old post) comments are fetched for both posts and the run output is
the spec-side filter crawl. -/
theorem C5_watermark_rule_witness :
    (processPosts envW envW.posts).commentFetches =
      envW.posts.map (fun p => p.id) ∧
    processPosts envW envW.posts =
      ⟨(envW.posts.flatMap (specPostEntities envW)).map Prod.fst,
       (envW.posts.flatMap (specPostEntities envW)).map Prod.snd,
       envW.posts.map (fun p => p.id), envW.posts.map (fun p => p.id)⟩ :=
  ⟨(C5_watermark_rule envW).2.2.1 (by decide),
   (C5_watermark_rule envW).2.2.2 (by decide)⟩

/-- C6: the paginated fetcher returns the in-order concatenation of the
`data` records of every page reached by following the `paging.next`
cursor until none remains; a page with a missing `data` key contributes
zero records (`Option.getD []`) instead of crashing, so an empty or
malformed first page yields an empty contribution and no error; the
sleeps are exactly the inter-page rate-limit delays and the requests are
exactly the chain's URLs in order. -/
theorem C6_pagination {α : Type} [DecidableEq α] (http : Str → Option (RawPage α))
    (maxR d : Nat) (hmax : 0 < maxR) (chain : List (Str × RawPage α)) (u : Str)
    (fuel : Nat) (hch : pageChain http u chain = true)
    (hfuel : chain.length + 1 ≤ fuel) :
    make_paginated_request http maxR d fuel u =
      some ⟨(chain.map (fun pr => pr.2.dataField.getD [])).flatten,
            List.replicate (chain.length - 1) d, chain.map Prod.fst⟩ := by
  unfold make_paginated_request
  have h := mprLoop_chain http maxR d hmax chain u fuel [] [] [] hch hfuel
  simpa using h

/-- C6 witness: the three-page oracle `http3` — whose middle page is
malformed (no `data` key) — yields the concatenation `[1, 2, 3]`, one
rate-limit sleep between consecutive pages, and the three chained URLs. -/
theorem C6_pagination_witness :
    make_paginated_request http3 3 1 4 ("uA".toList) =
      some ⟨[1, 2, 3], [1, 1], ["uA".toList, "uB".toList, "uC".toList]⟩ := by
  have h := C6_pagination http3 3 1 (by decide) pages3 ("uA".toList) 4 (by decide)
    (by decide)
  simpa [pages3] using h

/-- C7: every comment or reply row written to the relational store is
created with `replied = false` — and no write of this core sets it
otherwise — and carries correct ancestry: its `post_id` is the id of the
post under which it was found; a comment row has no
`parent_comment_id`, while a reply row's `parent_comment_id` is the id of
the comment whose inline reply reference led to it. -/
theorem C7_hierarchy (env : Env) (row : CommentRow)
    (hmem : RelWrite.commentRow row ∈ (processPosts env env.posts).writes) :
    row.replied = false ∧
    ∃ p ∈ env.posts,
      (row.parentCommentId = none ∧ row.postId = p.id ∧
        ∃ c ∈ env.fetchComments p.id, row = commentRowOf p.id c) ∨
      (∃ c ∈ env.fetchComments p.id, row.parentCommentId = some c.id ∧
        row.postId = p.id ∧ ∃ ref ∈ c.replies.getD [], ∃ rep,
          resolvedReply env ref = some rep ∧ row = replyRowOf p.id c.id rep) := by
  obtain ⟨p, hp, hcase⟩ := processPosts_rowOrigin env env.posts _ hmem
  rcases hcase with heq | ⟨c, hc, hcc⟩
  · simp at heq
  · rcases hcc with heq | ⟨ref, href, rep, hres, heq⟩
    · have hrow : row = commentRowOf p.id c := by simpa using heq
      subst hrow
      exact ⟨rfl, p, hp, Or.inl ⟨rfl, rfl, c, hc, rfl⟩⟩
    · have hrow : row = replyRowOf p.id c.id rep := by simpa using heq
      subst hrow
      exact ⟨rfl, p, hp, Or.inr ⟨c, hc, rfl, rfl, ref, href, rep, hres, rfl⟩⟩

/-- C7 witness: in `envW` the reply row resolved under post `p1` and
comment `c1` is in the write-set and the theorem yields `replied =
false` for it. -/
theorem C7_hierarchy_witness :
    (RelWrite.commentRow (replyRowOf ("p1".toList) ("c1".toList) repNew) ∈
      (processPosts envW envW.posts).writes) ∧
    (replyRowOf ("p1".toList) ("c1".toList) repNew).replied = false :=
  ⟨by decide, (C7_hierarchy envW (replyRowOf ("p1".toList) ("c1".toList) repNew)
    (by decide)).1⟩

/-- C8: a run that completes submits all staged vector records in exactly
one batch upsert call when at least one was produced and makes no
vector-index call when none were (the empty batch is a no-op, not an
error); and every submitted record's `metadata.type` is the kind of the
entity it was built from, with `metadata.text` equal to the normalized —
not the raw — text of that entity. -/
theorem C8_batch_upsert (env : Env) (out : PipelineOut)
    (h : process_and_upload_data env = .ok out) :
    (out.pineconeCalls =
      if out.loopOut.vecs.isEmpty then [] else [out.loopOut.vecs]) ∧
    (∀ v ∈ out.loopOut.vecs,
      (v.metadata.mtype = .post ∧ ∃ p ∈ env.posts, ∃ vals,
        env.embed (clean_text env.emojiMap p.caption) = some vals ∧
        v = postVec env p vals ∧
        v.metadata.text = clean_text env.emojiMap p.caption) ∨
      (v.metadata.mtype = .comment ∧ ∃ p ∈ env.posts,
        ∃ c ∈ env.fetchComments p.id, ∃ vals,
        env.embed (clean_text env.emojiMap c.text) = some vals ∧
        v = commentVec env p.id c vals ∧
        v.metadata.text = clean_text env.emojiMap c.text) ∨
      (v.metadata.mtype = .reply ∧ ∃ p ∈ env.posts,
        ∃ c ∈ env.fetchComments p.id, ∃ ref ∈ c.replies.getD [], ∃ rep vals,
        resolvedReply env ref = some rep ∧
        env.embed (clean_text env.emojiMap rep.text) = some vals ∧
        v = replyVec env p.id c.id rep vals ∧
        v.metadata.text = clean_text env.emojiMap rep.text)) := by
  have horigin : ∀ v ∈ (processPosts env env.posts).vecs,
      (v.metadata.mtype = .post ∧ ∃ p ∈ env.posts, ∃ vals,
        env.embed (clean_text env.emojiMap p.caption) = some vals ∧
        v = postVec env p vals ∧
        v.metadata.text = clean_text env.emojiMap p.caption) ∨
      (v.metadata.mtype = .comment ∧ ∃ p ∈ env.posts,
        ∃ c ∈ env.fetchComments p.id, ∃ vals,
        env.embed (clean_text env.emojiMap c.text) = some vals ∧
        v = commentVec env p.id c vals ∧
        v.metadata.text = clean_text env.emojiMap c.text) ∨
      (v.metadata.mtype = .reply ∧ ∃ p ∈ env.posts,
        ∃ c ∈ env.fetchComments p.id, ∃ ref ∈ c.replies.getD [], ∃ rep vals,
        resolvedReply env ref = some rep ∧
        env.embed (clean_text env.emojiMap rep.text) = some vals ∧
        v = replyVec env p.id c.id rep vals ∧
        v.metadata.text = clean_text env.emojiMap rep.text) := by
    intro v hv
    rcases processPosts_vecOrigin env env.posts v hv with ⟨p, hp, hcase⟩
    rcases hcase with ⟨vals, hemb, rfl⟩ | ⟨c, hc, hcc⟩
    · exact Or.inl ⟨rfl, p, hp, vals, hemb, rfl, rfl⟩
    · rcases hcc with ⟨vals, hemb, rfl⟩ | ⟨ref, href, rep, vals, hres, hemb, rfl⟩
      · exact Or.inr (Or.inl ⟨rfl, p, hp, c, hc, vals, hemb, rfl, rfl⟩)
      · exact Or.inr (Or.inr ⟨rfl, p, hp, c, hc, ref, href, rep, vals, hres,
          hemb, rfl, rfl⟩)
  unfold process_and_upload_data at h
  by_cases hv : (processPosts env env.posts).vecs.isEmpty = true
  · rw [if_pos hv] at h
    obtain rfl : out = ⟨processPosts env env.posts, []⟩ := (Except.ok.inj h).symm
    exact ⟨by simp [hv], horigin⟩
  · rw [if_neg hv] at h
    by_cases hup : env.upsertOk = true
    · rw [if_pos hup] at h
      obtain rfl : out = ⟨processPosts env env.posts,
          [(processPosts env env.posts).vecs]⟩ := (Except.ok.inj h).symm
      refine ⟨?_, horigin⟩
      simp only [PipelineOut.pineconeCalls]
      rw [if_neg hv]
    · rw [if_neg hup] at h
      exact absurd h (by simp)

/-- C8 witness: the healthy run `envW` completes, returning its loop
output with exactly one Pinecone batch call carrying all staged vectors,
as the theorem's batch-shape conjunct states. -/
theorem C8_batch_upsert_witness :
    process_and_upload_data envW =
      .ok ⟨processPosts envW envW.posts, [(processPosts envW envW.posts).vecs]⟩ ∧
    ((⟨processPosts envW envW.posts,
        [(processPosts envW envW.posts).vecs]⟩ : PipelineOut).pineconeCalls =
      if (⟨processPosts envW envW.posts,
            [(processPosts envW envW.posts).vecs]⟩ : PipelineOut).loopOut.vecs.isEmpty
      then [] else [(⟨processPosts envW envW.posts,
        [(processPosts envW envW.posts).vecs]⟩ : PipelineOut).loopOut.vecs]) :=
  ⟨rfl, (C8_batch_upsert envW
    ⟨processPosts envW envW.posts, [(processPosts envW envW.posts).vecs]⟩ rfl).1⟩

/-- C9 counterexample: `fetch_reply` does not retry a transient failure:
against an oracle that always answers status 500 it makes exactly one
attempt — not the fixed cap `max_retries = 3` — performs no backoff
sleep, and returns `None`; and against an oracle whose request raises,
the exception propagates out of `fetch_reply` instead of being retried. -/
theorem C9_cex :
    (fetch_reply http500 ("r1".toList)).attempts = 1 ∧
    ¬((fetch_reply http500 ("r1".toList)).attempts = 3) ∧
    (fetch_reply http500 ("r1".toList)).sleeps = [] ∧
    (fetch_reply http500 ("r1".toList)).result = .ok none ∧
    (fetch_reply httpExcO ("r1".toList)).result = .error () :=
  ⟨rfl, by decide, rfl, rfl, rfl⟩

/-- C9 (amended): `fetch_reply` makes exactly one attempt with no backoff
sleeps for any oracle; a non-200 status degrades the result to `None`
(logged, not raised), a 200 response yields the reply, and a transport
exception propagates to the caller — the per-post guard — rather than
being retried. -/
theorem C9_fetch_reply (http : Str → HttpResp) (replyId : Str) :
    (fetch_reply http replyId).attempts = 1 ∧
    (fetch_reply http replyId).sleeps = [] ∧
    (∀ code, http replyId = .status code →
      (fetch_reply http replyId).result = .ok none) ∧
    (∀ r, http replyId = .ok r →
      (fetch_reply http replyId).result = .ok (some r)) ∧
    (http replyId = .exc → (fetch_reply http replyId).result = .error ()) := by
  refine ⟨?_, ?_, ?_, ?_, ?_⟩
  · unfold fetch_reply; cases http replyId <;> rfl
  · unfold fetch_reply; cases http replyId <;> rfl
  · intro code hcode; unfold fetch_reply; rw [hcode]
  · intro r hr; unfold fetch_reply; rw [hr]
  · intro hexc; unfold fetch_reply; rw [hexc]

/-- C9 witness: the amended single-attempt behaviour at a concrete id on
the always-500 oracle. -/
theorem C9_fetch_reply_witness :
    (fetch_reply http500 ("r9".toList)).attempts = 1 ∧
    (fetch_reply http500 ("r9".toList)).result = .ok none :=
  ⟨(C9_fetch_reply http500 ("r9".toList)).1,
   (C9_fetch_reply http500 ("r9".toList)).2.2.1 500 rfl⟩

/-- C10 counterexample: with no `last_fetch_time` row the load returns
`datetime.min` (time 0), but a fetched post whose timestamp parses to
exactly `datetime.min` is NOT classified as new, because the rule is a
strict inequality: in `envC10x` (watermark 0) the single post `postMin`
has the parseable timestamp `tmin` (parsing to 0) and the run writes
nothing to either store. -/
theorem C10_cex :
    load_last_fetch_time [] parseT = some 0 ∧
    envC10x.wm = 0 ∧
    envC10x.parseTs postMin.timestamp = some 0 ∧
    processPosts envC10x envC10x.posts =
      ⟨[], [], ["pm".toList], ["pm".toList]⟩ :=
  ⟨rfl, rfl, by decide, by decide⟩

/-- C10 (amended): when the metadata store holds no `last_fetch_time`
row, or its first row's value is missing or not a string,
`load_last_fetch_time` returns `datetime.min` in UTC (time 0); on such a
run — watermark 0 — every fetched post, comment, and resolved reply whose
timestamp parses to a time strictly greater than `datetime.min` is
included in the relational write-set, provided no per-post exception
occurs; an entity parsing exactly to `datetime.min` is not new. -/
theorem C10_first_run (fromIso : Str → Option Nat) :
    (load_last_fetch_time [] fromIso = some 0) ∧
    (∀ (row : MetaRow) (rest : List MetaRow),
      (row.value = none ∨ row.value = some .nonString) →
      load_last_fetch_time (row :: rest) fromIso = some 0) ∧
    (∀ env : Env, env.wm = 0 → envOk env = true →
      (∀ p ∈ env.posts, ∀ t, env.parseTs p.timestamp = some t → 0 < t →
        RelWrite.postRow p ∈ (processPosts env env.posts).writes) ∧
      (∀ p ∈ env.posts, ∀ c ∈ env.fetchComments p.id, ∀ t,
        env.parseTs c.timestamp = some t → 0 < t →
        RelWrite.commentRow (commentRowOf p.id c) ∈
          (processPosts env env.posts).writes) ∧
      (∀ p ∈ env.posts, ∀ c ∈ env.fetchComments p.id,
        ∀ ref ∈ c.replies.getD [], ∀ rep, resolvedReply env ref = some rep →
        ∀ t, env.parseTs rep.timestamp = some t → 0 < t →
        RelWrite.commentRow (replyRowOf p.id c.id rep) ∈
          (processPosts env env.posts).writes)) := by
  refine ⟨rfl, ?_, ?_⟩
  · intro row rest hrow
    unfold load_last_fetch_time
    dsimp only
    rcases hrow with h | h <;> rw [h]
  · intro env hwm hok
    have hspec := processPosts_spec env env.posts hok
    refine ⟨?_, ?_, ?_⟩
    · intro p hp t ht hlt
      rw [hspec]
      exact mem_spec_writes_post env env.posts p hp
        (by simp [newTs, ht, hwm, hlt])
    · intro p hp c hc t ht hlt
      rw [hspec]
      exact mem_spec_writes_comment env env.posts p c hp hc
        (by simp [newTs, ht, hwm, hlt])
    · intro p hp c hc ref href rep hres t ht hlt
      rw [hspec]
      exact mem_spec_writes_reply env env.posts p c ref rep hp hc href hres
        (by simp [newTs, ht, hwm, hlt])

/-- C10 witness: in `envW0` — the healthy environment on its first-ever
run, watermark `datetime.min` — the post with a later parseable timestamp
is in the write-set. -/
theorem C10_first_run_witness :
    RelWrite.postRow postNew ∈ (processPosts envW0 envW0.posts).writes :=
  ((C10_first_run parseT).2.2 envW0 rfl (by decide)).1 postNew (by decide) 20
    (by decide) (by decide)
